import Mathlib

/-!
# Verification of `gpx_shortcoder.py`

A shallow embedding of the core link-detection and safe-splice subsystem of
`gpx_shortcoder.py` (WordPress GPX-link / OSM-shortcode tool), together with
proofs settling the specification claims about it.

Conventions of the embedding:

* Python strings are modelled as `String` / `List Char`; the Python string
  operations used by the source (`split('/')`, `rsplit('/', 1)`, `lstrip('/')`,
  `rstrip('/')`, `'/'.join`, `endswith`, `lower`) are given faithful
  executable models on `List Char`.
* Case-insensitive matching (`re.IGNORECASE`, `str.lower()`) is modelled at
  the ASCII level (Python's additional Unicode case folding is out of scope;
  all markup the program targets is ASCII).
* `urlparse` results are modelled by a record carrying the raw URL string and
  its `netloc` and `path` components.
-/

namespace Gpx

/-! ## Character helpers (ASCII models of Python character classes) -/

/-- ASCII lower-casing on code points: `A`..`Z` map to `a`..`z`. -/
def lowNat (n : Nat) : Nat := if 65 ≤ n ∧ n ≤ 90 then n + 32 else n

/-- ASCII lower-casing of a character, as performed by Python `str.lower()`
on ASCII input. -/
def pyLower (c : Char) : Char :=
  if 65 ≤ c.toNat ∧ c.toNat ≤ 90 then Char.ofNat (c.toNat + 32) else c

/-- Python's `\s` character class (ASCII part): space, tab, newline, carriage
return, vertical tab, form feed. -/
def pyWs (c : Char) : Bool :=
  c == ' ' || c == '\t' || c == '\n' || c == '\r' || c == '\x0b' || c == '\x0c'

/-- Case-insensitive key of a character list: each character is mapped to the
ASCII-lowercased code point.  Two lists match under `re.IGNORECASE` iff their
keys are equal. -/
def lowKey (l : List Char) : List Nat := l.map fun c => lowNat c.toNat

/-- ASCII-case-insensitive equality of two characters, as a Boolean test. -/
def lowEq (a b : Char) : Bool := lowNat a.toNat == lowNat b.toNat

/-- ASCII-case-insensitive equality of character lists. -/
def ciEq (a b : List Char) : Prop := lowKey a = lowKey b

instance (a b : List Char) : Decidable (ciEq a b) := by
  unfold ciEq; infer_instance

theorem ciEq_refl (a : List Char) : ciEq a a := rfl

theorem ciEq_length {a b : List Char} (h : ciEq a b) : a.length = b.length := by
  have := congrArg List.length h
  simpa [lowKey] using this

/-! ## Python `split('/')`, `'/'.join`, `rsplit('/',1)[0]`, `lstrip`, `rstrip` -/

/-- Python `s.split('/')` on character lists.  Always returns a non-empty
list of separator-free segments. -/
def splitSl : List Char → List (List Char)
  | [] => [[]]
  | c :: t =>
    if c = '/' then [] :: splitSl t
    else
      match splitSl t with
      | [] => [[c]]
      | h :: r => (c :: h) :: r

/-- Python `'/'.join(xs)` on character lists. -/
def joinSl : List (List Char) → List Char
  | [] => []
  | [s] => s
  | s :: t :: r => s ++ '/' :: joinSl (t :: r)

/-- Python `s.rsplit('/', 1)[0]`: everything before the last `/`, or the whole
string if there is no `/`. -/
def rsplitHead (l : List Char) : List Char :=
  match l.reverse.dropWhile (· ≠ '/') with
  | [] => l
  | _ :: rest => rest.reverse

theorem splitSl_ne_nil (l : List Char) : splitSl l ≠ [] := by
  induction l with
  | nil => simp [splitSl]
  | cons c t ih =>
    simp only [splitSl]
    split
    · simp
    · cases h : splitSl t <;> simp

theorem splitSl_slash (t : List Char) : splitSl ('/' :: t) = [] :: splitSl t := by
  simp [splitSl]

theorem splitSl_cons_of_ne {c : Char} (t : List Char) (hc : c ≠ '/') :
    ∃ h r, splitSl t = h :: r ∧ splitSl (c :: t) = (c :: h) :: r := by
  cases hs : splitSl t with
  | nil => exact absurd hs (splitSl_ne_nil t)
  | cons h r => exact ⟨h, r, rfl, by simp [splitSl, hc, hs]⟩

theorem joinSl_cons (s : List Char) {l : List (List Char)} (hl : l ≠ []) :
    joinSl (s :: l) = s ++ '/' :: joinSl l := by
  cases l with
  | nil => exact absurd rfl hl
  | cons t r => rfl

/-- Joining the split recovers the original string. -/
theorem joinSl_splitSl (l : List Char) : joinSl (splitSl l) = l := by
  induction l with
  | nil => rfl
  | cons c t ih =>
    by_cases hc : c = '/'
    · subst hc
      rw [splitSl_slash, joinSl_cons _ (splitSl_ne_nil t), ih]
      rfl
    · obtain ⟨h, r, hs, hcs⟩ := splitSl_cons_of_ne t hc
      rw [hcs]
      cases r with
      | nil =>
        have ht : joinSl (splitSl t) = t := ih
        rw [hs] at ht
        simp only [joinSl] at ht ⊢
        exact congrArg (c :: ·) ht
      | cons r0 rr =>
        have ht : joinSl (splitSl t) = t := ih
        rw [hs, joinSl_cons h (show r0 :: rr ≠ [] by simp)] at ht
        rw [joinSl_cons (c :: h) (show r0 :: rr ≠ [] by simp), List.cons_append]
        exact congrArg (c :: ·) ht

/-- Segments produced by `splitSl` contain no separator. -/
theorem splitSl_slashFree {l : List Char} : ∀ s ∈ splitSl l, '/' ∉ s := by
  induction l with
  | nil => intro s hs; simp [splitSl] at hs; simp [hs]
  | cons c t ih =>
    by_cases hc : c = '/'
    · subst hc
      rw [splitSl_slash]
      intro s hs
      rcases List.mem_cons.mp hs with h | h
      · simp [h]
      · exact ih s h
    · obtain ⟨h, r, hs, hcs⟩ := splitSl_cons_of_ne t hc
      rw [hcs]
      intro s hmem
      rcases List.mem_cons.mp hmem with he | he
      · subst he
        intro hin
        rcases List.mem_cons.mp hin with h1 | h1
        · exact hc h1.symm
        · exact ih h (hs ▸ List.mem_cons_self h r) h1
      · exact ih s (hs ▸ List.mem_cons_of_mem h he)

theorem joinSl_append {a b : List (List Char)} (ha : a ≠ []) (hb : b ≠ []) :
    joinSl (a ++ b) = joinSl a ++ '/' :: joinSl b := by
  induction a with
  | nil => exact absurd rfl ha
  | cons s rest ih =>
    cases rest with
    | nil =>
      rw [List.singleton_append, joinSl_cons s hb]
      rfl
    | cons t r =>
      have h1 : (s :: t :: r) ++ b = s :: ((t :: r) ++ b) := rfl
      rw [h1, joinSl_cons s (by simp), ih (by simp),
        joinSl_cons s (show t :: r ≠ [] by simp)]
      simp [List.append_assoc]

theorem splitSl_append_slash {s : List Char} (hs : '/' ∉ s) (r : List Char) :
    splitSl (s ++ '/' :: r) = s :: splitSl r := by
  induction s with
  | nil => simpa using splitSl_slash r
  | cons c t ih =>
    have hc : c ≠ '/' := fun h => hs (h ▸ List.mem_cons_self c t)
    have ht : '/' ∉ t := fun h => hs (List.mem_cons_of_mem c h)
    obtain ⟨h, rr, hsp, hcs⟩ := splitSl_cons_of_ne (t ++ '/' :: r) hc
    rw [ih ht] at hsp
    obtain ⟨he1, he2⟩ := List.cons.inj hsp
    rw [List.cons_append, hcs, ← he1, ← he2]

/-- Splitting a join of slash-free segments followed by an arbitrary tail
segment. -/
theorem splitSl_joinSl_concat {segs : List (List Char)}
    (h : ∀ s ∈ segs, '/' ∉ s) (t : List Char) :
    splitSl (joinSl (segs ++ [t])) = segs ++ splitSl t := by
  induction segs with
  | nil => simp [joinSl]
  | cons s rest ih =>
    rw [List.cons_append, joinSl_cons s (by simp),
      splitSl_append_slash (h s (List.mem_cons_self s rest))]
    rw [ih fun x hx => h x (List.mem_cons_of_mem s hx)]
    rfl

theorem dropWhile_ne_append {a : List Char} (ha : '/' ∉ a) (b : List Char) :
    (a ++ '/' :: b).dropWhile (· ≠ '/') = '/' :: b := by
  induction a with
  | nil => simp [List.dropWhile]
  | cons c t ih =>
    have hc : c ≠ '/' := fun h => ha (h ▸ List.mem_cons_self c t)
    have ht : '/' ∉ t := fun h => ha (List.mem_cons_of_mem c h)
    simpa [List.dropWhile, hc] using ih ht

/-- On a string containing a separator, Python `rsplit('/',1)[0]` equals
dropping the final segment of the `/`-split and re-joining. -/
theorem rsplitHead_eq {l : List Char} (h : '/' ∈ l) :
    rsplitHead l = joinSl (splitSl l).dropLast := by
  obtain ⟨init, last, hsegs⟩ : ∃ i b, splitSl l = i ++ [b] := by
    rcases List.eq_nil_or_concat (splitSl l) with h0 | ⟨i, b, hib⟩
    · exact absurd h0 (splitSl_ne_nil l)
    · exact ⟨i, b, by simpa [List.concat_eq_append] using hib⟩
  have hlast_sf : '/' ∉ last :=
    splitSl_slashFree last (hsegs ▸ List.mem_append_right init (List.mem_singleton_self last))
  cases init with
  | nil =>
    exfalso
    have : l = last := by
      have := joinSl_splitSl l
      rw [hsegs] at this
      simpa [joinSl] using this.symm
    exact hlast_sf (this ▸ h)
  | cons i0 ir =>
    have hjoin : l = joinSl ((i0 :: ir)) ++ '/' :: last := by
      have := joinSl_splitSl l
      rw [hsegs, joinSl_append (by simp) (by simp)] at this
      simpa [joinSl] using this.symm
    have hrev : l.reverse.dropWhile (· ≠ '/') = '/' :: (joinSl (i0 :: ir)).reverse := by
      have h2 : l.reverse = last.reverse ++ '/' :: (joinSl (i0 :: ir)).reverse := by
        rw [hjoin]; simp
      rw [h2, dropWhile_ne_append (by simpa using hlast_sf)]
    have hL : rsplitHead l = joinSl (i0 :: ir) := by
      unfold rsplitHead
      rw [hrev]
      simp
    have hR : joinSl (splitSl l).dropLast = joinSl (i0 :: ir) := by
      rw [hsegs, show i0 :: ir ++ [last] = (i0 :: ir) ++ [last] from rfl,
        List.dropLast_concat]
    rw [hL, hR]

/-- Python `s.rstrip('/')`: removes every trailing `/`. -/
def rstripSl (l : List Char) : List Char := (l.reverse.dropWhile (· = '/')).reverse

/-- Python `s.lstrip('/')`: removes every leading `/`. -/
def lstripSl (l : List Char) : List Char := l.dropWhile (· = '/')

/-- Embedding of the qualifying-file extension check in `find_gpx_links`
(`gpx_shortcoder.py`, line 40): `path.lower().rstrip('/').endswith('.gpx')`,
applied to the path component of the resolved URL. -/
def isQualifyingFile (path : String) : Bool :=
  List.isSuffixOf ".gpx".data (rstripSl (path.data.map pyLower))

/-- The claim's reading of the extension check: strip at most ONE trailing
`/`, then test the `.gpx` suffix case-insensitively. -/
def stripOneSlash (l : List Char) : List Char :=
  if l.getLast? = some '/' then l.dropLast else l

/-- Claimed qualifying condition (C7 as stated): path with one trailing `/`
stripped ends with the extension, case-insensitively. -/
def c7ClaimCond (path : String) : Bool :=
  List.isSuffixOf ".gpx".data (stripOneSlash (path.data.map pyLower))

/-- C7 counterexample: the code strips ALL trailing slashes
(`rstrip('/')`), so the path `/a.gpx//` is kept by the code's check although
the claimed condition (strip one `/`) rejects it. -/
theorem c7_counterexample :
    isQualifyingFile "/a.gpx//" = true ∧ c7ClaimCond "/a.gpx//" = false := by
  decide

/-- C7 amended: the anchor is kept by the extension check exactly when the
lowercased path, after stripping ALL trailing `/` characters, ends with
`.gpx`; an empty path is never qualifying. -/
theorem c7_amended :
    (∀ path : String, isQualifyingFile path = true ↔
      ∃ stem, rstripSl (path.data.map pyLower) = stem ++ ".gpx".data) ∧
    isQualifyingFile "" = false := by
  refine ⟨fun path => ?_, by decide⟩
  unfold isQualifyingFile
  constructor
  · intro h
    obtain ⟨stem, hstem⟩ := List.isSuffixOf_iff_suffix.mp h
    exact ⟨stem, hstem.symm⟩
  · intro ⟨stem, hstem⟩
    exact List.isSuffixOf_iff_suffix.mpr ⟨stem, hstem.symm⟩

/-! ## URL model and `compute_relative_path` -/

/-- A parsed absolute URL: the raw string together with the `netloc` and
`path` components that `urlparse` extracts from it (the only components the
program reads). -/
structure Url where
  url : String
  netloc : String
  path : String

/-- Embedding of `compute_relative_path(file_url, post_url)`
(`gpx_shortcoder.py`, lines 82–105): if the hosts differ return the file URL
unchanged; otherwise derive the post directory (`rsplit('/',1)[0] + '/'`
unless the path already ends in `/`), emit one `..` per non-empty directory
segment, and join with the file path stripped of leading slashes, falling
back to the raw file path when the join is empty.

`postDirL` is the directory derivation step (lines 96–99): the post path
itself when it ends in `/`, else `post_path.rsplit('/', 1)[0] + '/'`. -/
def postDirL (post_path : List Char) : List Char :=
  if post_path.getLast? = some '/' then post_path
  else rsplitHead post_path ++ ['/']

def compute_relative_path (file post : Url) : String :=
  if file.netloc ≠ post.netloc then file.url
  else
    let file_path := file.path.data
    let post_dir := postDirL post.path.data
    let post_segments := (splitSl post_dir).filter (· ≠ [])
    let ups := List.replicate post_segments.length ['.', '.']
    let rel := joinSl (ups ++ [lstripSl file_path])
    if rel = [] then String.mk file_path else String.mk rel

/-- The claim's reading of the relative-path algorithm, stated from the
specification text: reference directory is the post path if it ends in `/`,
otherwise the post path with its final path segment dropped and `/`
appended; one `..` step per non-empty directory segment; result is the
`/`-join of the steps followed by the target path with leading `/` stripped,
falling back to the raw target path when the join is empty. -/
def computeRelativePathSpec (file post : Url) : String :=
  let refDir :=
    if post.path.data.getLast? = some '/' then post.path.data
    else joinSl (splitSl post.path.data).dropLast ++ ['/']
  let steps := List.replicate ((splitSl refDir).filter (· ≠ [])).length ['.', '.']
  let joined := joinSl (steps ++ [file.path.data.dropWhile (· = '/')])
  if joined = [] then file.path else String.mk joined

/-- C2.  For absolute URLs (path empty or beginning with `/`) on the same
host, `compute_relative_path` computes exactly the directory / `..`-count /
join procedure stated by the specification. -/
theorem c2_relative_path_algorithm (file post : Url)
    (hnet : file.netloc = post.netloc)
    (habs : post.path.data = [] ∨ post.path.data.head? = some '/') :
    compute_relative_path file post = computeRelativePathSpec file post := by
  have hdir :
      postDirL post.path.data
      = (if post.path.data.getLast? = some '/' then post.path.data
        else joinSl (splitSl post.path.data).dropLast ++ ['/']) := by
    unfold postDirL
    split
    · rfl
    · rcases habs with h0 | hh
      · rw [h0]; rfl
      · have hmem : '/' ∈ post.path.data := by
          cases hd : post.path.data with
          | nil => simp [hd] at hh
          | cons c t =>
            rw [hd] at hh
            simp only [List.head?_cons, Option.some.injEq] at hh
            simp [hh]
        rw [rsplitHead_eq hmem]
  unfold compute_relative_path computeRelativePathSpec lstripSl
  rw [if_neg (by simpa using hnet)]
  simp only
  rw [hdir]

/-- Witness for `c2_relative_path_algorithm` at a concrete input. -/
theorem c2_relative_path_algorithm_witness :
    compute_relative_path
        ⟨"https://h/wp-content/uploads/track.gpx", "h", "/wp-content/uploads/track.gpx"⟩
        ⟨"https://h/2020/05/01/post/", "h", "/2020/05/01/post/"⟩
      = computeRelativePathSpec
        ⟨"https://h/wp-content/uploads/track.gpx", "h", "/wp-content/uploads/track.gpx"⟩
        ⟨"https://h/2020/05/01/post/", "h", "/2020/05/01/post/"⟩ :=
  c2_relative_path_algorithm _ _ rfl (Or.inr rfl)

/-- C9.  When the two hosts differ, `compute_relative_path` returns the file
URL unchanged (the function is total: no error is raised). -/
theorem c9_cross_host (file post : Url) (h : file.netloc ≠ post.netloc) :
    compute_relative_path file post = file.url := by
  unfold compute_relative_path
  rw [if_pos h]

/-- Witness for `c9_cross_host` at a concrete input. -/
theorem c9_cross_host_witness :
    compute_relative_path ⟨"https://a/x.gpx", "a", "/x.gpx"⟩ ⟨"https://b/p/", "b", "/p/"⟩
      = "https://a/x.gpx" :=
  c9_cross_host _ _ (by decide)

/-! ## Relative-reference resolution (spec-side apparatus for the C3
round-trip property)

The specification's round-trip property speaks of "resolving the produced
relative reference against the reference URL's directory".  We model that
resolution in the standard way (RFC 3986): concatenate the directory with
the relative reference and remove dot segments (`.` is dropped, `..` pops
the previous segment; a trailing dot segment leaves a trailing slash). -/

/-- Remove-dot-segments processing of a segment list, with an accumulator:
`.` segments are dropped, `..` pops the last accumulated segment (never the
leading root segment). -/
def rdsAux : List (List Char) → List (List Char) → List (List Char)
  | acc, [] => acc
  | acc, s :: rest =>
    if s = ['.'] then rdsAux acc rest
    else if s = ['.', '.'] then
      rdsAux (if acc.length ≤ 1 then acc else acc.dropLast) rest
    else rdsAux (acc ++ [s]) rest

/-- Remove dot segments from a split path; a final `.` or `..` input segment
leaves a trailing empty segment (trailing slash). -/
def removeDotSegs (segs : List (List Char)) : List (List Char) :=
  let r := rdsAux [] segs
  if segs.getLast? = some ['.'] ∨ segs.getLast? = some ['.', '.'] then r ++ [[]]
  else r

/-- Resolution of a (path-only) reference `rel` against the base directory
`dir`: an absolute reference replaces the directory, a relative reference is
merged onto it; dot segments are then removed. -/
def resolveRelative (dir rel : String) : String :=
  if rel.data.head? = some '/' then String.mk (joinSl (removeDotSegs (splitSl rel.data)))
  else String.mk (joinSl (removeDotSegs (splitSl (dir.data ++ rel.data))))

theorem strMk_data (s : String) : String.mk s.data = s := by
  cases s; rfl

theorem rdsAux_step (acc : List (List Char)) (s : List Char)
    (rest : List (List Char)) (h1 : s ≠ ['.']) (h2 : s ≠ ['.', '.']) :
    rdsAux acc (s :: rest) = rdsAux (acc ++ [s]) rest := by
  simp only [rdsAux]
  rw [if_neg h1, if_neg h2]

theorem rdsAux_pop (acc : List (List Char)) (rest : List (List Char))
    (h : ¬ acc.length ≤ 1) :
    rdsAux acc (['.', '.'] :: rest) = rdsAux acc.dropLast rest := by
  simp only [rdsAux]
  rw [if_pos trivial, if_neg h,
    if_neg (show ¬(['.', '.'] : List Char) = ['.'] by decide)]

theorem rdsAux_append_clean {segs : List (List Char)}
    (h : ∀ s ∈ segs, s ≠ ['.'] ∧ s ≠ ['.', '.']) (acc rest : List (List Char)) :
    rdsAux acc (segs ++ rest) = rdsAux (acc ++ segs) rest := by
  induction segs generalizing acc with
  | nil => simp
  | cons s ss ih =>
    have hs := h s (List.mem_cons_self s ss)
    have hss : ∀ x ∈ ss, x ≠ ['.'] ∧ x ≠ ['.', '.'] :=
      fun x hx => h x (List.mem_cons_of_mem s hx)
    rw [List.cons_append, rdsAux_step acc s _ hs.1 hs.2, ih hss (acc ++ [s])]
    simp

theorem rdsAux_pops (m rest : List (List Char)) :
    rdsAux ([[]] ++ m) (List.replicate m.length ['.', '.'] ++ rest)
      = rdsAux [[]] rest := by
  induction m using List.reverseRecOn with
  | nil => simp
  | append_singleton m' x ih =>
    rw [show (m' ++ [x]).length = m'.length + 1 by simp, List.replicate_succ]
    show rdsAux ([[]] ++ (m' ++ [x]))
        (['.', '.'] :: (List.replicate m'.length ['.', '.'] ++ rest)) = _
    have hdl : ([[]] ++ (m' ++ [x]) : List (List Char)).dropLast = [[]] ++ m' := by
      rw [← List.append_assoc, List.dropLast_concat]
    rw [rdsAux_pop _ _ (by simp), hdl]
    exact ih

theorem mem_of_getLast?_eq {l : List (List Char)} {x : List Char}
    (h : l.getLast? = some x) : x ∈ l := by
  induction l with
  | nil => simp at h
  | cons a t ih =>
    cases t with
    | nil =>
      rw [List.getLast?_singleton] at h
      simp [Option.some.inj h]
    | cons b u =>
      rw [List.getLast?_cons_cons] at h
      exact List.mem_cons_of_mem a (ih h)

/-- Helper: the relative path produced in the same-host branch is empty only
when there are no `..` steps and the stripped file path is empty. -/
theorem joinSl_ups_eq_nil {k : Nat} {t : List Char}
    (h : joinSl (List.replicate k ['.', '.'] ++ [t]) = []) : k = 0 ∧ t = [] := by
  cases k with
  | zero => simpa [joinSl] using h
  | succ n =>
    exfalso
    rw [List.replicate_succ, List.cons_append,
      joinSl_cons _ (by simp)] at h
    simp at h

/-- C3 counterexample: with equal hosts, post path `/p/` and file path
`/x/../y.gpx`, resolving the produced relative reference `../x/../y.gpx`
against the post directory yields `/y.gpx`, not the original target path
`/x/../y.gpx` — the round-trip claim is false as stated for paths containing
dot segments. -/
theorem c3_counterexample :
    resolveRelative (String.mk (postDirL ("/p/" : String).data))
        (compute_relative_path ⟨"https://h/x/../y.gpx", "h", "/x/../y.gpx"⟩
          ⟨"https://h/p/", "h", "/p/"⟩)
      ≠ "/x/../y.gpx" := by
  decide

/-- C3 amended: for same-host URLs whose target path begins with a single
`/` and contains no `.`/`..` segments, and whose derived post directory
consists of non-empty, non-dot segments, resolving the relative reference
produced by `compute_relative_path` against the post directory yields the
original target path. -/
theorem c3_roundtrip (file post : Url)
    (hnet : file.netloc = post.netloc)
    (hdir : ∃ m : List (List Char),
      splitSl (postDirL post.path.data) = [] :: m ++ [[]] ∧
      ∀ s ∈ m, s ≠ [] ∧ s ≠ ['.'] ∧ s ≠ ['.', '.'])
    (hfile : ∃ t : List Char, file.path.data = '/' :: t ∧ t.head? ≠ some '/' ∧
      ∀ s ∈ splitSl t, s ≠ ['.'] ∧ s ≠ ['.', '.']) :
    resolveRelative (String.mk (postDirL post.path.data))
        (compute_relative_path file post) = file.path := by
  obtain ⟨m, hsplit, hm⟩ := hdir
  obtain ⟨t, hfp, hth, ht⟩ := hfile
  have hmsf : ∀ s ∈ m, '/' ∉ s := by
    intro s hs
    apply splitSl_slashFree s
    rw [hsplit]
    exact List.mem_cons_of_mem _ (List.mem_append_left _ hs)
  have hdirJ : postDirL post.path.data = joinSl ([] :: m ++ [[]]) := by
    rw [← hsplit, joinSl_splitSl]
  have hsegsEq : (splitSl (postDirL post.path.data)).filter (· ≠ []) = m := by
    rw [hsplit]
    simp only [List.filter_append, List.filter_cons]
    rw [List.filter_eq_self.mpr (fun a ha => by simpa using (hm a ha).1)]
    simp
  have hstrip : lstripSl file.path.data = t := by
    rw [hfp]
    cases tc : t with
    | nil => rfl
    | cons c tt =>
      have hc : c ≠ '/' := by
        rw [tc] at hth; simpa using hth
      show List.dropWhile (fun x => x = '/') ('/' :: c :: tt) = c :: tt
      rw [List.dropWhile_cons, if_pos (by simp), List.dropWhile_cons,
        if_neg (by simp [hc])]
  have hcrp : compute_relative_path file post
      = if joinSl (List.replicate m.length ['.', '.'] ++ [t]) = []
        then String.mk file.path.data
        else String.mk (joinSl (List.replicate m.length ['.', '.'] ++ [t])) := by
    unfold compute_relative_path
    rw [if_neg (by simpa using hnet)]
    show (if joinSl (List.replicate
            ((splitSl (postDirL post.path.data)).filter (· ≠ [])).length ['.', '.']
            ++ [lstripSl file.path.data]) = []
          then String.mk file.path.data
          else String.mk (joinSl (List.replicate
            ((splitSl (postDirL post.path.data)).filter (· ≠ [])).length ['.', '.']
            ++ [lstripSl file.path.data]))) = _
    rw [hsegsEq, hstrip]
  rw [hcrp]
  by_cases hz : joinSl (List.replicate m.length ['.', '.'] ++ [t]) = []
  · obtain ⟨hk, htz⟩ := joinSl_ups_eq_nil hz
    rw [if_pos hz]
    subst htz
    unfold resolveRelative
    rw [show (String.mk file.path.data).data = file.path.data from rfl, hfp]
    rw [if_pos (by rfl)]
    rw [show splitSl ['/'] = [[], []] by decide]
    rw [show removeDotSegs [[], []] = [[], []] by decide]
    rw [show joinSl [[], []] = ['/'] by decide, ← hfp, strMk_data]
  · rw [if_neg hz]
    have hrelh : (String.mk (joinSl (List.replicate m.length ['.', '.'] ++ [t]))).data.head?
        ≠ some '/' := by
      cases hk : m.length with
      | zero =>
        simp only [hk, List.replicate, List.nil_append]
        cases tc : t with
        | nil =>
          exfalso
          exact hz (by simp [hk, tc, joinSl])
        | cons c tt =>
          rw [tc] at hth
          simpa [joinSl] using hth
      | succ n =>
        rw [List.replicate_succ, List.cons_append, joinSl_cons _ (by simp)]
        simp
    unfold resolveRelative
    rw [if_neg hrelh]
    have hmerge : (String.mk (postDirL post.path.data)).data
        ++ (String.mk (joinSl (List.replicate m.length ['.', '.'] ++ [t]))).data
        = joinSl ((([] :: m) ++ List.replicate m.length ['.', '.']) ++ [t]) := by
      show postDirL post.path.data ++ joinSl (List.replicate m.length ['.', '.'] ++ [t]) = _
      rw [hdirJ,
        show ([] : List Char) :: m ++ [[]] = ([] :: m) ++ [[]] from rfl,
        joinSl_append (by simp) (by simp),
        show joinSl [([] : List Char)] = [] from rfl,
        show (([] : List Char) :: m ++ List.replicate m.length ['.', '.']) ++ [t]
          = ([] :: m) ++ (List.replicate m.length ['.', '.'] ++ [t]) by
            simp [List.append_assoc],
        joinSl_append (a := [] :: m)
          (b := List.replicate m.length ['.', '.'] ++ [t]) (by simp) (by simp)]
      simp [List.append_assoc]
    rw [hmerge]
    have hclean : ∀ s ∈ ([] :: m) ++ List.replicate m.length ['.', '.'], '/' ∉ s := by
      intro s hs
      rcases List.mem_append.mp hs with h1 | h2
      · rcases List.mem_cons.mp h1 with h3 | h3
        · simp [h3]
        · exact hmsf s h3
      · rw [List.eq_of_mem_replicate h2]; decide
    rw [splitSl_joinSl_concat hclean t]
    have hlast : (([] :: m ++ List.replicate m.length ['.', '.']) ++ splitSl t).getLast?
        = (splitSl t).getLast? := by
      rw [List.getLast?_append]
      cases hsp : splitSl t with
      | nil => exact absurd hsp (splitSl_ne_nil t)
      | cons a b =>
        cases hg : (a :: b).getLast? with
        | none => simp at hg
        | some v => rfl
    have hlastNotDot :
        ¬ ((([] :: m ++ List.replicate m.length ['.', '.']) ++ splitSl t).getLast? = some ['.']
          ∨ (([] :: m ++ List.replicate m.length ['.', '.']) ++ splitSl t).getLast? = some ['.', '.']) := by
      rw [hlast]
      rintro (h1 | h1)
      · exact (ht _ (mem_of_getLast?_eq h1)).1 rfl
      · exact (ht _ (mem_of_getLast?_eq h1)).2 rfl
    unfold removeDotSegs
    simp only
    rw [if_neg hlastNotDot]
    have e1 : ([] :: m ++ List.replicate m.length ['.', '.']) ++ splitSl t
        = ([] :: m) ++ (List.replicate m.length ['.', '.'] ++ splitSl t) := by
      simp [List.append_assoc]
    have h2 : rdsAux [[]] (splitSl t) = [[]] ++ splitSl t := by
      have h3 := rdsAux_append_clean ht [[]] []
      rw [List.append_nil] at h3
      exact h3
    rw [e1, rdsAux_append_clean (by
        intro s hs
        rcases List.mem_cons.mp hs with h3 | h3
        · constructor <;> (rw [h3]; decide)
        · exact ⟨(hm s h3).2.1, (hm s h3).2.2⟩) [] _,
      List.nil_append,
      show ([] : List Char) :: m = [[]] ++ m from rfl,
      rdsAux_pops m (splitSl t), h2]
    rw [show ([[]] ++ splitSl t : List (List Char)) = [] :: splitSl t from rfl,
      joinSl_cons _ (splitSl_ne_nil t), joinSl_splitSl]
    simp only [List.nil_append]
    rw [← hfp, strMk_data]

/-- Witness for `c3_roundtrip` at the specification's own end-to-end
example. -/
theorem c3_roundtrip_witness :
    resolveRelative (String.mk (postDirL ("/2020/05/01/post/" : String).data))
        (compute_relative_path
          ⟨"https://h/wp-content/uploads/track.gpx", "h", "/wp-content/uploads/track.gpx"⟩
          ⟨"https://h/2020/05/01/post/", "h", "/2020/05/01/post/"⟩)
      = "/wp-content/uploads/track.gpx" :=
  c3_roundtrip
    ⟨"https://h/wp-content/uploads/track.gpx", "h", "/wp-content/uploads/track.gpx"⟩
    ⟨"https://h/2020/05/01/post/", "h", "/2020/05/01/post/"⟩
    rfl
    ⟨["2020".data, "05".data, "01".data, "post".data], by decide, by decide⟩
    ⟨"wp-content/uploads/track.gpx".data, by decide, by decide, by decide⟩

/-! ## Line-Isolation Guard

Embedding of `find_gpx_links` lines 54–66: the physical line containing the
match start is extracted (`rfind('\n', 0, idx) + 1` to `find('\n', idx)`),
and the guard regex
`^\s*(?:<p[^>]*>\s*)?ESC(matched)(?:\s*</p>)?\s*$` (IGNORECASE) is matched
against it.  The regex is deterministic except for the two optional groups,
which are modelled by trying both alternatives. -/

/-- Case-insensitive literal matching: strip `pat` (up to ASCII case) from
the front of `l`, returning the consumed characters and the remainder. -/
def ciSplit : List Char → List Char → Option (List Char × List Char)
  | [], l => some ([], l)
  | _ :: _, [] => none
  | p :: ps, c :: cs =>
    if lowEq c p then
      match ciSplit ps cs with
      | some (m, r) => some (c :: m, r)
      | none => none
    else none

theorem ciSplit_sound : ∀ {pat l m r : List Char},
    ciSplit pat l = some (m, r) → l = m ++ r ∧ ciEq m pat := by
  intro pat
  induction pat with
  | nil =>
    intro l m r h
    simp only [ciSplit, Option.some.injEq, Prod.mk.injEq] at h
    obtain ⟨h1, h2⟩ := h
    exact ⟨by rw [← h1, ← h2]; rfl, by rw [← h1]; rfl⟩
  | cons p ps ih =>
    intro l m r h
    cases l with
    | nil => simp [ciSplit] at h
    | cons c cs =>
      simp only [ciSplit] at h
      by_cases hle : lowEq c p
      · rw [if_pos hle] at h
        cases hrec : ciSplit ps cs with
        | none => rw [hrec] at h; simp at h
        | some pr =>
          obtain ⟨m1, r1⟩ := pr
          rw [hrec] at h
          simp only [Option.some.injEq, Prod.mk.injEq] at h
          obtain ⟨hm, hr⟩ := h
          obtain ⟨hcs, hci⟩ := ih hrec
          constructor
          · rw [← hm, ← hr, hcs]; rfl
          · rw [← hm]
            show lowKey (c :: m1) = lowKey (p :: ps)
            show lowNat c.toNat :: lowKey m1 = lowNat p.toNat :: lowKey ps
            rw [hci]
            have : lowNat c.toNat = lowNat p.toNat := by
              have := hle
              unfold lowEq at this
              exact beq_iff_eq.mp this
            rw [this]
      · rw [if_neg hle] at h; simp at h

/-- Drop leading whitespace (the deterministic part of a leading `\s*`). -/
def dropWs (l : List Char) : List Char := l.dropWhile pyWs

/-- The line containing position `idx`: from just after the previous newline
to just before the next newline (lines 57–61 of the source). -/
def guardLine (html : List Char) (idx : Nat) : List Char :=
  ((html.take idx).reverse.takeWhile (· ≠ '\n')).reverse
    ++ (html.drop idx).takeWhile (· ≠ '\n')

/-- The guard regex after the matched string: `(?:\s*</p>)?\s*$`. -/
def guardEnd (rest : List Char) : Bool :=
  rest.all pyWs ||
    (match ciSplit ['<', '/', 'p', '>'] (dropWs rest) with
     | some pr => pr.2.all pyWs
     | none => false)

/-- Guard alternative without the optional `<p...>` group. -/
def guardNoP (line m : List Char) : Bool :=
  match ciSplit m (dropWs line) with
  | some pr => guardEnd pr.2
  | none => false

/-- Guard alternative with the optional `<p[^>]*>\s*` group. -/
def guardWithP (line m : List Char) : Bool :=
  match ciSplit ['<', 'p'] (dropWs line) with
  | some pr =>
    (match pr.2.dropWhile (· ≠ '>') with
     | '>' :: r2 =>
       (match ciSplit m (dropWs r2) with
        | some pr2 => guardEnd pr2.2
        | none => false)
     | _ => false)
  | none => false

/-- Embedding of the line-isolation guard (lines 54–66): extract the line of
the match start and match the whole-line pattern against it. -/
def lineIsolationGuard (html : String) (idx : Nat) (matched : String) : Bool :=
  guardWithP (guardLine html.data idx) matched.data
    || guardNoP (guardLine html.data idx) matched.data

/-- All-whitespace predicate. -/
def allWs (l : List Char) : Prop := ∀ c ∈ l, pyWs c = true

/-- An opening paragraph tag (up to ASCII case) followed by optional
whitespace. -/
def pTagOpen (pre : List Char) : Prop :=
  ∃ op attrs w, pre = op ++ attrs ++ '>' :: w ∧ ciEq op ['<', 'p']
    ∧ '>' ∉ attrs ∧ allWs w

/-- Optional whitespace followed by a closing paragraph tag (up to ASCII
case). -/
def pTagClose (post : List Char) : Prop :=
  ∃ w cl, post = w ++ cl ∧ allWs w ∧ ciEq cl ['<', '/', 'p', '>']

/-- The shape forced on the guarded line: optional whitespace, optionally a
single opening `<p...>` tag with trailing whitespace, the matched substring
up to ASCII case, optionally whitespace and a closing `</p>` tag, and
trailing whitespace. -/
def isolatedShape (line m : List Char) : Prop :=
  ∃ w0 pre mm post w3, line = w0 ++ pre ++ mm ++ post ++ w3
    ∧ allWs w0 ∧ allWs w3 ∧ ciEq mm m
    ∧ (pre = [] ∨ pTagOpen pre) ∧ (post = [] ∨ pTagClose post)

theorem dropWs_decomp (l : List Char) :
    ∃ w, l = w ++ dropWs l ∧ allWs w :=
  ⟨l.takeWhile pyWs, (List.takeWhile_append_dropWhile pyWs l).symm,
    fun _ hc => List.mem_takeWhile_imp hc⟩

theorem allWs_of_all {l : List Char} (h : l.all pyWs = true) : allWs l :=
  fun c hc => List.all_eq_true.mp h c hc

theorem guardEnd_shape {rest : List Char} (h : guardEnd rest = true) :
    ∃ post w3, rest = post ++ w3 ∧ allWs w3 ∧ (post = [] ∨ pTagClose post) := by
  rcases Bool.or_eq_true_iff.mp h with h1 | h2
  · exact ⟨[], rest, rfl, allWs_of_all h1, Or.inl rfl⟩
  · cases hsp : ciSplit ['<', '/', 'p', '>'] (dropWs rest) with
    | none => rw [hsp] at h2; simp at h2
    | some pr =>
      obtain ⟨cl, r2⟩ := pr
      rw [hsp] at h2
      obtain ⟨hdec, hci⟩ := ciSplit_sound hsp
      obtain ⟨w2, hw2, hw2ws⟩ := dropWs_decomp rest
      refine ⟨w2 ++ cl, r2, ?_, allWs_of_all h2, Or.inr ⟨w2, cl, rfl, hw2ws, hci⟩⟩
      rw [hw2, hdec]
      simp [List.append_assoc]

theorem dropWhile_head_not {p : Char → Bool} {l : List Char} {x : Char}
    {xs : List Char} (h : l.dropWhile p = x :: xs) : p x = false := by
  induction l with
  | nil => simp at h
  | cons c t ih =>
    rw [List.dropWhile_cons] at h
    by_cases hc : p c
    · rw [if_pos hc] at h; exact ih h
    · rw [if_neg hc] at h
      obtain ⟨rfl, -⟩ := List.cons.inj h
      simpa using hc

/-- Soundness of the guard: a passing line has the isolated shape. -/
theorem guard_shape {line m : List Char}
    (h : (guardWithP line m || guardNoP line m) = true) :
    isolatedShape line m := by
  obtain ⟨w0, hw0, hw0ws⟩ := dropWs_decomp line
  rcases Bool.or_eq_true_iff.mp h with hP | hN
  · unfold guardWithP at hP
    cases hsp : ciSplit ['<', 'p'] (dropWs line) with
    | none => rw [hsp] at hP; simp at hP
    | some pr =>
      obtain ⟨op, r1⟩ := pr
      rw [hsp] at hP
      obtain ⟨hr1, hopci⟩ := ciSplit_sound hsp
      replace hP : (match r1.dropWhile (· ≠ '>') with
        | '>' :: r2 =>
          (match ciSplit m (dropWs r2) with
           | some pr2 => guardEnd pr2.2
           | none => false)
        | _ => false) = true := hP
      cases hdw : r1.dropWhile (· ≠ '>') with
      | nil => rw [hdw] at hP; simp at hP
      | cons g r2 =>
        have hg : g = '>' := by simpa using dropWhile_head_not hdw
        subst hg
        rw [hdw] at hP
        replace hP : (match ciSplit m (dropWs r2) with
          | some pr2 => guardEnd pr2.2
          | none => false) = true := hP
        cases hsp2 : ciSplit m (dropWs r2) with
        | none => rw [hsp2] at hP; simp at hP
        | some pr2 =>
          obtain ⟨mm, rest⟩ := pr2
          rw [hsp2] at hP
          replace hP : guardEnd rest = true := hP
          obtain ⟨hr2, hmci⟩ := ciSplit_sound hsp2
          obtain ⟨post, w3, hrest, hw3, hpost⟩ := guardEnd_shape hP
          obtain ⟨w1, hw1, hw1ws⟩ := dropWs_decomp r2
          obtain ⟨A, hA, hAne⟩ : ∃ A, r1 = A ++ '>' :: r2 ∧ ∀ x ∈ A, x ≠ '>' := by
            refine ⟨r1.takeWhile (· ≠ '>'), ?_, ?_⟩
            · conv_lhs => rw [← List.takeWhile_append_dropWhile (fun c => decide (c ≠ '>')) r1]
              rw [hdw]
            · intro x hx
              simpa using List.mem_takeWhile_imp hx
          refine ⟨w0, op ++ A ++ '>' :: w1, mm, post, w3, ?_,
            hw0ws, hw3, hmci, Or.inr ⟨op, A, w1, rfl, hopci,
              fun hmem => hAne '>' hmem rfl, hw1ws⟩,
            hpost⟩
          rw [hw0, hr1, hA, hw1, hr2, hrest]
          simp [List.append_assoc]
  · unfold guardNoP at hN
    cases hsp : ciSplit m (dropWs line) with
    | none => rw [hsp] at hN; simp at hN
    | some pr =>
      obtain ⟨mm, rest⟩ := pr
      rw [hsp] at hN
      replace hN : guardEnd rest = true := hN
      obtain ⟨hdec, hmci⟩ := ciSplit_sound hsp
      obtain ⟨post, w3, hrest, hw3, hpost⟩ := guardEnd_shape hN
      refine ⟨w0, [], mm, post, w3, ?_, hw0ws, hw3, hmci, Or.inl rfl, hpost⟩
      rw [hw0, hdec, hrest]
      simp [List.append_assoc]

/-- Trim whitespace from both ends (Python `str.strip()` on the line). -/
def trimWs (l : List Char) : List Char :=
  ((dropWs l).reverse.dropWhile pyWs).reverse

/-- The claim's literal reading of the guard condition: the line, after
trimming whitespace, EQUALS the matched substring optionally preceded by a
single opening `<p...>` tag and/or followed by a closing `</p>` tag (exact
string equality, no whitespace inside the wrapper, exact case). -/
def literalIsolatedLine (line m : List Char) : Bool :=
  (trimWs line == m) || (trimWs line == m ++ ['<', '/', 'p', '>']) ||
    (match trimWs line with
     | '<' :: 'p' :: r =>
       (match r.dropWhile (· ≠ '>') with
        | '>' :: rest => (rest == m) || (rest == m ++ ['<', '/', 'p', '>'])
        | _ => false)
     | _ => false)

/-- C1 counterexample: for the document
`<p> <a href="x.gpx">t</a></P>` (whitespace after the paragraph tag,
capital `</P>`), the guard at the anchor match starting at index 4 passes —
the guard regex allows internal whitespace and is case-insensitive — yet the
trimmed line does not literally equal the matched substring with an optional
`<p...>` / `</p>` wrapper, so the claim as stated is false. -/
theorem c1_counterexample :
    lineIsolationGuard "<p> <a href=\"x.gpx\">t</a></P>" 4 "<a href=\"x.gpx\">t</a>" = true
    ∧ literalIsolatedLine
        (guardLine ("<p> <a href=\"x.gpx\">t</a></P>" : String).data 4)
        ("<a href=\"x.gpx\">t</a>" : String).data = false := by
  constructor
  · decide
  · decide

/-- C1 amended: the guard passes only if the physical line of the match
start consists of optional whitespace, optionally a single opening `<p...>`
tag followed by optional whitespace, the matched substring up to ASCII case,
optionally optional whitespace and a closing `</p>` tag (up to ASCII case),
and optional trailing whitespace. -/
theorem c1_guard_isolation (html : String) (idx : Nat) (matched : String)
    (h : lineIsolationGuard html idx matched = true) :
    isolatedShape (guardLine html.data idx) matched.data :=
  guard_shape h

/-- Witness for `c1_guard_isolation`: a line containing only
`<p><a href="x">t</a></p>` passes the guard and has the isolated shape. -/
theorem c1_guard_isolation_witness :
    isolatedShape (guardLine ("<p><a href=\"x.gpx\">t</a></p>" : String).data 3)
      ("<a href=\"x.gpx\">t</a>" : String).data :=
  c1_guard_isolation "<p><a href=\"x.gpx\">t</a></p>" 3 "<a href=\"x.gpx\">t</a>"
    (by decide)

theorem guardLine_no_nl (html : List Char) (idx : Nat) :
    ∀ c ∈ guardLine html idx, c ≠ '\n' := by
  intro c hc
  unfold guardLine at hc
  rcases List.mem_append.mp hc with h1 | h2
  · have h3 := List.mem_takeWhile_imp (List.mem_reverse.mp h1)
    simpa using h3
  · have h3 := List.mem_takeWhile_imp h2
    simpa using h3

/-- C10.  A matched substring accepted by the line-isolation guard contains
no newline: the guard's line stops at the first newline after the match
start, and the whole matched string must fit on it. -/
theorem c10_single_line (html : String) (idx : Nat) (matched : String)
    (h : lineIsolationGuard html idx matched = true) :
    '\n' ∉ matched.data := by
  obtain ⟨w0, pre, mm, post, w3, hline, _, _, hci, _, _⟩ := guard_shape h
  intro hn
  have h10 : (10 : Nat) ∈ lowKey matched.data :=
    List.mem_map.mpr ⟨'\n', hn, by decide⟩
  rw [show lowKey matched.data = lowKey mm from hci.symm] at h10
  obtain ⟨c, hcm, hc10⟩ := List.mem_map.mp h10
  have hcn : c.toNat = 10 := by
    unfold lowNat at hc10
    split at hc10 <;> omega
  have hceq : c = '\n' := by
    have h1 : Char.ofNat c.toNat = Char.ofNat 10 := by rw [hcn]
    rw [Char.ofNat_toNat] at h1
    rw [h1]
  have hcl : c ∈ guardLine html.data idx := by
    rw [hline]
    simp only [List.mem_append]
    tauto
  exact guardLine_no_nl html.data idx c hcl hceq

/-- Witness for `c10_single_line` at a concrete guarded match. -/
theorem c10_single_line_witness :
    '\n' ∉ ("<a href=\"x.gpx\">t</a>" : String).data :=
  c10_single_line "<p><a href=\"x.gpx\">t</a></p>" 3 "<a href=\"x.gpx\">t</a>"
    (by decide)

/-! ## Parsed-document model and `insert_shortcode_into_html`

`insert_shortcode_into_html` (lines 108–132) re-parses the document with
BeautifulSoup, re-identifies the anchor by `(href, stripped text)` equality
over `soup.find_all('a', href=True)` in document order, walks up with
`find_parent('p')`, inserts the shortcode node before the paragraph (or the
anchor), and returns `str(soup)`.

The parse tree BeautifulSoup produces is modelled by `Node`; since the
claims quantify over documents, the parser itself is passed as an abstract
`parse : String → List Node` function.  Serialization is modelled without
BeautifulSoup's entity escaping (the shortcodes the program inserts contain
no markup-special characters). -/

/-- A node of the parsed document: a text run or an element with a tag
name, attributes and children. -/
inductive Node where
  | text (s : List Char)
  | elem (tag : List Char) (attrs : List (List Char × List Char)) (children : List Node)

/-- Serialize an attribute list as ` key="value"` pairs. -/
def serAttrs : List (List Char × List Char) → List Char
  | [] => []
  | (k, v) :: r => ' ' :: (k ++ '=' :: '"' :: (v ++ '"' :: serAttrs r))

mutual

/-- Serialization of one node (model of `str(...)`). -/
def serNode : Node → List Char
  | .text s => s
  | .elem t a c =>
    '<' :: (t ++ serAttrs a ++ '>' :: serNodes c) ++ '<' :: '/' :: t ++ ['>']

/-- Serialization of a node list. -/
def serNodes : List Node → List Char
  | [] => []
  | n :: r => serNode n ++ serNodes r

end

mutual

/-- The text runs of a node, in document order. -/
def textsN : Node → List (List Char)
  | .text s => [s]
  | .elem _ _ c => textsL c

/-- The text runs of a node list, in document order. -/
def textsL : List Node → List (List Char)
  | [] => []
  | n :: r => textsN n ++ textsL r

end

/-- Model of `get_text(strip=True)`: the concatenation of each text run with
surrounding whitespace stripped. -/
def getTextStrip (n : Node) : List Char := ((textsN n).map trimWs).flatten

/-- Model of `tag.get(key)`: first attribute with the given name. -/
def getAttr : List (List Char × List Char) → List Char → Option (List Char)
  | [], _ => none
  | (k, v) :: r, key => if k = key then some v else getAttr r key

/-- The re-identification test of lines 117–119: an anchor hits when its
`href` attribute equals the recorded href and its stripped text equals the
recorded title. -/
def isHitB (n : Node) (href title : List Char) : Bool :=
  match n with
  | .elem _ a _ => (getAttr a ['h', 'r', 'e', 'f'] == some href)
      && (getTextStrip n == title)
  | .text _ => false

mutual

/-- The anchors (`<a>` elements carrying an `href` attribute) inside one
node, in document order, paired with their tree paths (`px` is the path of
the node itself). -/
def anchorsN (px : List Nat) : Node → List (List Nat × Node)
  | .text _ => []
  | .elem t a c =>
    (if t = ['a'] ∧ (getAttr a ['h', 'r', 'e', 'f']).isSome then
       [(px, Node.elem t a c)]
     else []) ++ anchorsC px 0 c

/-- The anchors inside a node list whose elements have paths
`px ++ [i], px ++ [i+1], ...`. -/
def anchorsC (px : List Nat) (i : Nat) : List Node → List (List Nat × Node)
  | [] => []
  | n :: r => anchorsN (px ++ [i]) n ++ anchorsC px (i + 1) r

end

/-- Model of `soup.find_all('a', href=True)` paired with tree paths, in
document order. -/
def anchorsWithPaths (d : List Node) : List (List Nat × Node) :=
  anchorsC [] 0 d

/-- The selection loop of lines 115–122: the first anchor whose `href` and
stripped text equal the recorded ones. -/
def findFirstMatch (d : List Node) (href title : List Char) :
    Option (List Nat × Node) :=
  (anchorsWithPaths d).find? fun pn => isHitB pn.2 href title

/-- The node at a tree path. -/
def nodeAt : List Node → List Nat → Option Node
  | _, [] => none
  | d, [i] => d.get? i
  | d, i :: j :: rest =>
    match d.get? i with
    | some (.elem _ _ c) => nodeAt c (j :: rest)
    | _ => none

/-- Whether the node at a path is a `p` element. -/
def isPElemAt (d : List Node) (q : List Nat) : Bool :=
  match nodeAt d q with
  | some (.elem t _ _) => t == ['p']
  | _ => false

/-- Model of `target.find_parent('p')`: the nearest (deepest) strict
ancestor of the path that is a `p` element. -/
def find_parent_p (d : List Node) (p : List Nat) : Option (List Nat) :=
  ((List.range (p.length - 1)).reverse.find? fun k => isPElemAt d (p.take (k + 1))).map
    fun k => p.take (k + 1)

/-- Insert a node immediately before the node at the given path. -/
def insertAt : List Node → List Nat → Node → List Node
  | d, [], _ => d
  | d, [i], x => d.take i ++ x :: d.drop i
  | d, i :: j :: rest, x =>
    match d.get? i with
    | some (.elem t a c) => d.set i (.elem t a (insertAt c (j :: rest) x))
    | _ => d

/-- Embedding of `insert_shortcode_into_html(html, link_tag, shortcode)`
(lines 108–132), with the parser abstracted: re-parse, re-identify the
anchor by value equality, insert the shortcode before the enclosing
paragraph (or before the anchor when no paragraph encloses it), and
re-serialize.  When re-identification fails, the input string is returned
unchanged. -/
def insert_shortcode_into_html (parse : String → List Node) (html : String)
    (href title sc : String) : String :=
  match findFirstMatch (parse html) href.data title.data with
  | none => html
  | some (ap, _) =>
    match find_parent_p (parse html) ap with
    | some pp => String.mk (serNodes (insertAt (parse html) pp (Node.text sc.data)))
    | none => String.mk (serNodes (insertAt (parse html) ap (Node.text sc.data)))

/-- A sample parsed document: `<p><a href="x.gpx">t</a></p>`. -/
def exDoc : List Node :=
  [Node.elem ['p'] [] [Node.elem ['a'] [(['h', 'r', 'e', 'f'], "x.gpx".data)]
    [Node.text ['t']]]]

/-- C5.  When no anchor of the parsed document has both the recorded href
and the recorded stripped text, `insert_shortcode_into_html` returns the
input document text unchanged. -/
theorem c5_miss_atomic (parse : String → List Node) (html href title sc : String)
    (hmiss : ∀ pn ∈ anchorsWithPaths (parse html),
      isHitB pn.2 href.data title.data = false) :
    insert_shortcode_into_html parse html href title sc = html := by
  have hnone : findFirstMatch (parse html) href.data title.data = none := by
    unfold findFirstMatch
    exact List.find?_eq_none.mpr fun pn hpn => by simp [hmiss pn hpn]
  unfold insert_shortcode_into_html
  rw [hnone]

/-- Witness for `c5_miss_atomic`: a document whose only anchor has a
different href is returned unchanged. -/
theorem c5_miss_atomic_witness :
    insert_shortcode_into_html (fun _ => exDoc) "<p><a href=\"x.gpx\">t</a></p>"
      "other.gpx" "t" "[SC]" = "<p><a href=\"x.gpx\">t</a></p>" :=
  c5_miss_atomic (fun _ => exDoc) "<p><a href=\"x.gpx\">t</a></p>"
    "other.gpx" "t" "[SC]" (by decide)

theorem find?_eq_some_split {α : Type} (p : α → Bool) :
    ∀ (l : List α) (a : α), l.find? p = some a →
      ∃ l1 l2, l = l1 ++ a :: l2 ∧ ∀ x ∈ l1, p x = false := by
  intro l
  induction l with
  | nil => intro a h; simp at h
  | cons b t ih =>
    intro a h
    by_cases hb : p b
    · rw [List.find?_cons_of_pos _ hb] at h
      obtain rfl := Option.some.inj h
      exact ⟨[], t, rfl, by simp⟩
    · rw [List.find?_cons_of_neg _ hb] at h
      obtain ⟨l1, l2, hdecomp, hfail⟩ := ih a h
      refine ⟨b :: l1, l2, by rw [hdecomp]; rfl, ?_⟩
      intro x hx
      rcases List.mem_cons.mp hx with rfl | hx2
      · simpa using hb
      · exact hfail x hx2

theorem find?_range_reverse_some (p : Nat → Bool) :
    ∀ n k, ((List.range n).reverse.find? p = some k) →
      p k = true ∧ k < n ∧ ∀ j, k < j → j < n → p j = false := by
  intro n
  induction n with
  | zero => intro k h; simp at h
  | succ n ih =>
    intro k h
    rw [List.range_succ, List.reverse_append] at h
    simp only [List.reverse_singleton, List.singleton_append] at h
    by_cases hp : p n
    · rw [List.find?_cons_of_pos _ hp] at h
      obtain rfl := Option.some.inj h
      exact ⟨hp, Nat.lt_succ_self n, fun j h1 h2 => absurd h2 (by omega)⟩
    · rw [List.find?_cons_of_neg _ hp] at h
      obtain ⟨h1, h2, h3⟩ := ih k h
      refine ⟨h1, by omega, fun j hj1 hj2 => ?_⟩
      by_cases hjn : j = n
      · subst hjn; simpa using hp
      · exact h3 j hj1 (by omega)

theorem find?_range_reverse_none (p : Nat → Bool) :
    ∀ n, ((List.range n).reverse.find? p = none) → ∀ j, j < n → p j = false := by
  intro n
  induction n with
  | zero => intro h j hj; omega
  | succ n ih =>
    intro h j hj
    rw [List.range_succ, List.reverse_append] at h
    simp only [List.reverse_singleton, List.singleton_append] at h
    by_cases hp : p n
    · rw [List.find?_cons_of_pos _ hp] at h; simp at h
    · rw [List.find?_cons_of_neg _ hp] at h
      by_cases hjn : j = n
      · subst hjn; simpa using hp
      · exact ih h j (by omega)

/-- C4.  When `insert_shortcode_into_html` re-identifies an anchor, the
selected anchor is the FIRST hit in document order, and the directive text
node is inserted immediately before the nearest enclosing `p` ancestor when
one exists, and immediately before the anchor itself otherwise. -/
theorem c4_placement (parse : String → List Node) (html href title sc : String)
    (ap : List Nat) (n : Node)
    (hfind : findFirstMatch (parse html) href.data title.data = some (ap, n)) :
    (isHitB n href.data title.data = true
      ∧ ∃ l1 l2, anchorsWithPaths (parse html) = l1 ++ ((ap, n) :: l2)
          ∧ ∀ pn ∈ l1, isHitB pn.2 href.data title.data = false)
    ∧ ((∃ j, 1 ≤ j ∧ j < ap.length
          ∧ isPElemAt (parse html) (ap.take j) = true
          ∧ (∀ j2, j < j2 → j2 < ap.length →
              isPElemAt (parse html) (ap.take j2) = false)
          ∧ insert_shortcode_into_html parse html href title sc
              = String.mk (serNodes (insertAt (parse html) (ap.take j)
                  (Node.text sc.data))))
      ∨ ((∀ j, 1 ≤ j → j < ap.length →
            isPElemAt (parse html) (ap.take j) = false)
          ∧ insert_shortcode_into_html parse html href title sc
              = String.mk (serNodes (insertAt (parse html) ap
                  (Node.text sc.data))))) := by
  have hfind2 : (anchorsWithPaths (parse html)).find?
      (fun pn => isHitB pn.2 href.data title.data) = some (ap, n) := hfind
  constructor
  · constructor
    · have h1 := List.find?_some hfind2
      simpa using h1
    · obtain ⟨l1, l2, hd, hf⟩ := find?_eq_some_split _ _ _ hfind2
      exact ⟨l1, l2, hd, hf⟩
  · cases hpp : find_parent_p (parse html) ap with
    | some pp =>
      left
      have hpp2 : (((List.range (ap.length - 1)).reverse.find?
            fun k => isPElemAt (parse html) (ap.take (k + 1))).map
          fun k => ap.take (k + 1)) = some pp := hpp
      obtain ⟨k, hk, hppk⟩ := Option.map_eq_some'.mp hpp2
      obtain ⟨hpk, hkn, hlater⟩ := find?_range_reverse_some _ _ _ hk
      refine ⟨k + 1, by omega, by omega, hpk, ?_, ?_⟩
      · intro j2 hj1 hj2
        have := hlater (j2 - 1) (by omega) (by omega)
        rwa [show j2 - 1 + 1 = j2 by omega] at this
      · unfold insert_shortcode_into_html
        rw [hfind]
        show (match find_parent_p (parse html) ap with
          | some pp => String.mk (serNodes (insertAt (parse html) pp (Node.text sc.data)))
          | none => String.mk (serNodes (insertAt (parse html) ap (Node.text sc.data)))) = _
        rw [hpp, ← hppk]
    | none =>
      right
      have hpp2 : (((List.range (ap.length - 1)).reverse.find?
            fun k => isPElemAt (parse html) (ap.take (k + 1))).map
          fun k => ap.take (k + 1)) = none := hpp
      have hnone := Option.map_eq_none'.mp hpp2
      have hall := find?_range_reverse_none _ _ hnone
      refine ⟨fun j hj1 hj2 => ?_, ?_⟩
      · have := hall (j - 1) (by omega)
        rwa [show j - 1 + 1 = j by omega] at this
      · unfold insert_shortcode_into_html
        rw [hfind]
        show (match find_parent_p (parse html) ap with
          | some pp => String.mk (serNodes (insertAt (parse html) pp (Node.text sc.data)))
          | none => String.mk (serNodes (insertAt (parse html) ap (Node.text sc.data)))) = _
        rw [hpp]

/-- The anchor of `exDoc`. -/
def exAnchor : Node :=
  Node.elem ['a'] [(['h', 'r', 'e', 'f'], "x.gpx".data)] [Node.text ['t']]

/-- Witness for `c4_placement` on `exDoc`: the anchor at path `[0, 0]` is
selected and the directive is inserted before its `p` parent at `[0]`. -/
theorem c4_placement_witness :
    (isHitB exAnchor "x.gpx".data "t".data = true
      ∧ ∃ l1 l2, anchorsWithPaths exDoc = l1 ++ (([0, 0], exAnchor) :: l2)
          ∧ ∀ pn ∈ l1, isHitB pn.2 "x.gpx".data "t".data = false)
    ∧ ((∃ j, 1 ≤ j ∧ j < ([0, 0] : List Nat).length
          ∧ isPElemAt exDoc (([0, 0] : List Nat).take j) = true
          ∧ (∀ j2, j < j2 → j2 < ([0, 0] : List Nat).length →
              isPElemAt exDoc (([0, 0] : List Nat).take j2) = false)
          ∧ insert_shortcode_into_html (fun _ => exDoc)
              "<p><a href=\"x.gpx\">t</a></p>" "x.gpx" "t" "[SC]"
              = String.mk (serNodes (insertAt exDoc (([0, 0] : List Nat).take j)
                  (Node.text "[SC]".data))))
      ∨ ((∀ j, 1 ≤ j → j < ([0, 0] : List Nat).length →
            isPElemAt exDoc (([0, 0] : List Nat).take j) = false)
          ∧ insert_shortcode_into_html (fun _ => exDoc)
              "<p><a href=\"x.gpx\">t</a></p>" "x.gpx" "t" "[SC]"
              = String.mk (serNodes (insertAt exDoc ([0, 0] : List Nat)
                  (Node.text "[SC]".data))))) :=
  c4_placement (fun _ => exDoc) "<p><a href=\"x.gpx\">t</a></p>" "x.gpx" "t" "[SC]"
    [0, 0] exAnchor rfl

theorem serNodes_append : ∀ a b : List Node, serNodes (a ++ b) = serNodes a ++ serNodes b := by
  intro a b
  induction a with
  | nil => rfl
  | cons n r ih =>
    show serNode n ++ serNodes (r ++ b) = (serNode n ++ serNodes r) ++ serNodes b
    rw [ih, List.append_assoc]

theorem get?_set_decomp {α : Type} (b : α) :
    ∀ (l : List α) (i : Nat) (a : α), l.get? i = some a →
      l = l.take i ++ a :: l.drop (i + 1)
        ∧ l.set i b = l.take i ++ b :: l.drop (i + 1) := by
  intro l
  induction l with
  | nil => intro i a h; simp at h
  | cons c t ih =>
    intro i a h
    cases i with
    | zero =>
      replace h : some c = some a := h
      obtain rfl := Option.some.inj h
      exact ⟨rfl, rfl⟩
    | succ i2 =>
      replace h : t.get? i2 = some a := h
      obtain ⟨e1, e2⟩ := ih i2 a h
      constructor
      · show c :: t = c :: (t.take i2 ++ a :: t.drop (i2 + 1))
        rw [← e1]
      · show c :: t.set i2 b = c :: (t.take i2 ++ b :: t.drop (i2 + 1))
        rw [e2]

/-- Inserting a node at a valid path splits the serialization at one point
and splices the new node's serialization there, leaving everything outside
byte-identical. -/
theorem ser_insert_split : ∀ (pos : List Nat) (d : List Node) (x node : Node),
    nodeAt d pos = some x →
    ∃ pre post, serNodes d = pre ++ post
      ∧ serNodes (insertAt d pos node) = pre ++ serNode node ++ post := by
  intro pos
  induction pos with
  | nil => intro d x node h; simp [nodeAt] at h
  | cons i rest ih =>
    intro d x node h
    cases rest with
    | nil =>
      refine ⟨serNodes (d.take i), serNodes (d.drop i), ?_, ?_⟩
      · rw [← serNodes_append, List.take_append_drop]
      · show serNodes (d.take i ++ node :: d.drop i) = _
        rw [serNodes_append]
        show serNodes (d.take i) ++ (serNode node ++ serNodes (d.drop i)) = _
        rw [List.append_assoc]
    | cons j rest2 =>
      replace h : (match d.get? i with
        | some (.elem t a c) => nodeAt c (j :: rest2)
        | _ => none) = some x := h
      cases hg : d.get? i with
      | none => rw [hg] at h; simp at h
      | some nd =>
        cases nd with
        | text s => rw [hg] at h; simp at h
        | elem t a c =>
          rw [hg] at h
          replace h : nodeAt c (j :: rest2) = some x := h
          obtain ⟨pre1, post1, hs1, hs2⟩ := ih c x node h
          obtain ⟨hd_eq, hset_eq⟩ :=
            get?_set_decomp (Node.elem t a (insertAt c (j :: rest2) node)) d i _ hg
          refine ⟨serNodes (d.take i) ++ '<' :: (t ++ serAttrs a ++ '>' :: pre1),
            (post1 ++ '<' :: '/' :: t ++ ['>']) ++ serNodes (d.drop (i + 1)), ?_, ?_⟩
          · conv_lhs => rw [hd_eq]
            rw [serNodes_append]
            show serNodes (d.take i)
                ++ (serNode (Node.elem t a c) ++ serNodes (d.drop (i + 1))) = _
            rw [show serNode (Node.elem t a c)
                = '<' :: (t ++ serAttrs a ++ '>' :: serNodes c)
                    ++ '<' :: '/' :: t ++ ['>'] from rfl, hs1]
            simp [List.append_assoc]
          · have hins : insertAt d (i :: j :: rest2) node
                = d.set i (Node.elem t a (insertAt c (j :: rest2) node)) := by
              show (match d.get? i with
                | some (.elem t a c) => d.set i (.elem t a (insertAt c (j :: rest2) node))
                | _ => d) = _
              rw [hg]
            rw [hins, hset_eq, serNodes_append]
            show serNodes (d.take i)
                ++ (serNode (Node.elem t a (insertAt c (j :: rest2) node))
                    ++ serNodes (d.drop (i + 1))) = _
            rw [show serNode (Node.elem t a (insertAt c (j :: rest2) node))
                = '<' :: (t ++ serAttrs a ++ '>' :: serNodes (insertAt c (j :: rest2) node))
                    ++ '<' :: '/' :: t ++ ['>'] from rfl, hs2]
            simp [List.append_assoc]

theorem nodeAt_cons_succ (n : Node) (r : List Node) (j : Nat) (q : List Nat) :
    nodeAt (n :: r) ((j + 1) :: q) = nodeAt r (j :: q) := by
  cases q with
  | nil => rfl
  | cons q0 qr => rfl

/-- Every path produced by the anchor enumeration addresses its node. -/
theorem anchorsC_valid : ∀ (l : List Node) (px : List Nat) (i : Nat)
    (p : List Nat) (m : Node), (p, m) ∈ anchorsC px i l →
    ∃ j q, p = px ++ (i + j) :: q ∧ nodeAt l (j :: q) = some m
  | [], px, i, p, m => by intro h; simp [anchorsC] at h
  | n :: r, px, i, p, m => by
    intro h
    replace h : (p, m) ∈ anchorsN (px ++ [i]) n ++ anchorsC px (i + 1) r := h
    rcases List.mem_append.mp h with h1 | h2
    · cases n with
      | text s => simp [anchorsN, anchorsC] at h1
      | elem t a c =>
        replace h1 : (p, m) ∈
            (if t = ['a'] ∧ (getAttr a ['h', 'r', 'e', 'f']).isSome then
              [(px ++ [i], Node.elem t a c)] else []) ++ anchorsC (px ++ [i]) 0 c := h1
        rcases List.mem_append.mp h1 with h3 | h4
        · by_cases hcond : t = ['a'] ∧ (getAttr a ['h', 'r', 'e', 'f']).isSome
          · rw [if_pos hcond] at h3
            simp only [List.mem_singleton, Prod.mk.injEq] at h3
            obtain ⟨rfl, rfl⟩ := h3
            exact ⟨0, [], by simp, rfl⟩
          · rw [if_neg hcond] at h3; simp at h3
        · obtain ⟨j2, q2, hp, hn⟩ := anchorsC_valid c (px ++ [i]) 0 p m h4
          refine ⟨0, j2 :: q2, ?_, ?_⟩
          · rw [hp]
            simp [List.append_assoc]
          · exact hn
    · obtain ⟨j2, q2, hp, hn⟩ := anchorsC_valid r px (i + 1) p m h2
      refine ⟨j2 + 1, q2, ?_, ?_⟩
      · rw [hp, show i + 1 + j2 = i + (j2 + 1) by omega]
      · rw [nodeAt_cons_succ]
        exact hn

theorem anchors_nodeAt {d : List Node} {p : List Nat} {m : Node}
    (h : (p, m) ∈ anchorsWithPaths d) : nodeAt d p = some m := by
  obtain ⟨j, q, hp, hn⟩ := anchorsC_valid d [] 0 p m h
  rw [hp]
  simpa using hn

theorem isPElemAt_nodeAt {d : List Node} {q : List Nat}
    (h : isPElemAt d q = true) : ∃ x, nodeAt d q = some x := by
  unfold isPElemAt at h
  cases hn : nodeAt d q with
  | none => rw [hn] at h; simp at h
  | some x => exact ⟨x, rfl⟩

/-- C6 counterexample: `insert_shortcode_into_html` re-serializes the
parsed tree, so markup the parser normalizes (here: whitespace inside the
`<p >` open tag, which BeautifulSoup's re-serialization drops) is NOT
byte-identical outside the insertion point; the output is not the input
with the directive spliced in at any position. -/
theorem c6_counterexample :
    ¬ ∃ i, (insert_shortcode_into_html (fun _ => exDoc)
        "<p ><a href=\"x.gpx\">t</a></p>" "x.gpx" "t" "[SC]").data
      = ("<p ><a href=\"x.gpx\">t</a></p>" : String).data.take i
        ++ ("[SC]" : String).data
        ++ ("<p ><a href=\"x.gpx\">t</a></p>" : String).data.drop i := by
  rintro ⟨i, hi⟩
  have h1 : (insert_shortcode_into_html (fun _ => exDoc)
      "<p ><a href=\"x.gpx\">t</a></p>" "x.gpx" "t" "[SC]").data
      = ("[SC]<p><a href=\"x.gpx\">t</a></p>" : String).data := by decide
  rw [h1] at hi
  have hlen := congrArg List.length hi
  rw [List.length_append, List.length_append, List.length_take,
    List.length_drop] at hlen
  rw [show (("[SC]<p><a href=\"x.gpx\">t</a></p>" : String).data).length = 32 by decide,
    show (("<p ><a href=\"x.gpx\">t</a></p>" : String).data).length = 29 by decide,
    show (("[SC]" : String).data).length = 4 by decide] at hlen
  omega

/-- C6 amended: when the parsed document re-serializes to the input text
and the anchor is re-identified, the spliced output is the input text with
the directive inserted at a single point — every byte outside the insertion
point is unchanged. -/
theorem c6_frame (parse : String → List Node) (html href title sc : String)
    (hser : serNodes (parse html) = html.data)
    (hfound : (findFirstMatch (parse html) href.data title.data).isSome = true) :
    ∃ pre post, html.data = pre ++ post
      ∧ (insert_shortcode_into_html parse html href title sc).data
          = pre ++ sc.data ++ post := by
  cases hf : findFirstMatch (parse html) href.data title.data with
  | none => rw [hf] at hfound; simp at hfound
  | some apn =>
    obtain ⟨ap, n⟩ := apn
    have hf2 : (anchorsWithPaths (parse html)).find?
        (fun pn => isHitB pn.2 href.data title.data) = some (ap, n) := hf
    have hmem : (ap, n) ∈ anchorsWithPaths (parse html) :=
      List.mem_of_find?_eq_some hf2
    have hvalid : nodeAt (parse html) ap = some n := anchors_nodeAt hmem
    cases hpp : find_parent_p (parse html) ap with
    | some pp =>
      have hpp2 : (((List.range (ap.length - 1)).reverse.find?
            fun k => isPElemAt (parse html) (ap.take (k + 1))).map
          fun k => ap.take (k + 1)) = some pp := hpp
      obtain ⟨k, hk, hppk⟩ := Option.map_eq_some'.mp hpp2
      have hP : isPElemAt (parse html) (ap.take (k + 1)) = true :=
        (find?_range_reverse_some _ _ _ hk).1
      obtain ⟨x, hx⟩ := isPElemAt_nodeAt hP
      obtain ⟨pre, post, h1, h2⟩ :=
        ser_insert_split (ap.take (k + 1)) (parse html) x (Node.text sc.data) hx
      refine ⟨pre, post, by rw [← hser, h1], ?_⟩
      have hres : insert_shortcode_into_html parse html href title sc
          = String.mk (serNodes (insertAt (parse html) pp (Node.text sc.data))) := by
        unfold insert_shortcode_into_html
        rw [hf]
        show (match find_parent_p (parse html) ap with
          | some pp => String.mk (serNodes (insertAt (parse html) pp (Node.text sc.data)))
          | none => String.mk (serNodes (insertAt (parse html) ap (Node.text sc.data)))) = _
        rw [hpp]
      rw [hres, ← hppk]
      show serNodes (insertAt (parse html) (ap.take (k + 1)) (Node.text sc.data))
          = pre ++ sc.data ++ post
      rw [h2]
      rfl
    | none =>
      obtain ⟨pre, post, h1, h2⟩ :=
        ser_insert_split ap (parse html) n (Node.text sc.data) hvalid
      refine ⟨pre, post, by rw [← hser, h1], ?_⟩
      have hres : insert_shortcode_into_html parse html href title sc
          = String.mk (serNodes (insertAt (parse html) ap (Node.text sc.data))) := by
        unfold insert_shortcode_into_html
        rw [hf]
        show (match find_parent_p (parse html) ap with
          | some pp => String.mk (serNodes (insertAt (parse html) pp (Node.text sc.data)))
          | none => String.mk (serNodes (insertAt (parse html) ap (Node.text sc.data)))) = _
        rw [hpp]
      rw [hres]
      show serNodes (insertAt (parse html) ap (Node.text sc.data))
          = pre ++ sc.data ++ post
      rw [h2]
      rfl

/-- Witness for `c6_frame` on a faithfully re-serializing parse of
`<p><a href="x.gpx">t</a></p>`. -/
theorem c6_frame_witness :
    ∃ pre post, ("<p><a href=\"x.gpx\">t</a></p>" : String).data = pre ++ post
      ∧ (insert_shortcode_into_html (fun _ => exDoc)
          "<p><a href=\"x.gpx\">t</a></p>" "x.gpx" "t" "[SC]").data
        = pre ++ ("[SC]" : String).data ++ post :=
  c6_frame (fun _ => exDoc) "<p><a href=\"x.gpx\">t</a></p>" "x.gpx" "t" "[SC]"
    (by decide) (by decide)

/-! ## Raw-text anchor pattern (C8)

Embedding of the anchor-locating regex of `find_gpx_links` (lines 48–52):

`<a\b[^>]*\bhref\s*=\s*(?:"|')?HREF(?:"|')?[^>]*>\s*TITLE\s*</a>`

with `re.IGNORECASE` and `HREF`/`TITLE` escaped literals, searched
leftmost-first by `re.search`.  The deterministic pieces (`[^>]*>` runs to
the first `>`, `\s*` before a non-whitespace literal) are modelled directly;
the genuinely nondeterministic pieces (the `[^>]*` before `\bhref`, tried
greedily, and the optional quotes, quote-first) are modelled by descending
enumeration and `Option` alternation in the regex engine's preference
order. -/

/-- The single-quote character (code point 39). -/
def squote : Char := Char.ofNat 39

/-- Regex word character (`\w`, ASCII part): letters, digits, underscore. -/
def isWordC (c : Char) : Bool :=
  ('a' ≤ c && c ≤ 'z') || ('A' ≤ c && c ≤ 'Z') || ('0' ≤ c && c ≤ '9') || c == '_'

/-- Try `f n`, `f (n-1)`, …, `f 0`, returning the first success (greedy
preference order for a star's match length). -/
def firstSomeDesc {α : Type} (f : Nat → Option α) : Nat → Option α
  | 0 => f 0
  | n + 1 => (f (n + 1)).orElse fun _ => firstSomeDesc f n

/-- Pieces matched after the tag's closing `>`: `\s* TITLE \s* </a>`. -/
structure CloseParts where
  w3 : List Char
  t2 : List Char
  w4 : List Char
  cl : List Char
  rest : List Char

/-- Pieces matched from after the href value: `[^>]* >` then the close. -/
structure TagEnd where
  attrs2 : List Char
  tail : CloseParts

/-- Pieces of the href value with its optional quotes and the tag end. -/
structure ValParts where
  q1 : List Char
  h2 : List Char
  q2 : List Char
  te : TagEnd

/-- One full match of the anchor regex. -/
structure AMatch where
  aTag : List Char
  g1 : List Char
  hrefTok : List Char
  w1 : List Char
  w2 : List Char
  val : ValParts

/-- The characters consumed by a match — `m.group(0)`. -/
def consumed (m : AMatch) : List Char :=
  m.aTag ++ m.g1 ++ m.hrefTok ++ m.w1 ++ '=' :: (m.w2 ++ m.val.q1 ++ m.val.h2
    ++ m.val.q2 ++ m.val.te.attrs2 ++ '>' :: (m.val.te.tail.w3
    ++ m.val.te.tail.t2 ++ m.val.te.tail.w4 ++ m.val.te.tail.cl))

/-- The characters after the match. -/
def restOf (m : AMatch) : List Char := m.val.te.tail.rest

/-- Match `\s* TITLE \s* </a>` (the `\s*` before `TITLE` is enumerated
greedily because `TITLE` may itself begin with whitespace; the `\s*` before
`</a>` is deterministic since `<` is not whitespace). -/
def matchClose (title r : List Char) : Option CloseParts :=
  firstSomeDesc (fun nn =>
    match ciSplit title (r.drop nn) with
    | some (t2, r6) =>
      match ciSplit ['<', '/', 'a', '>'] (dropWs r6) with
      | some (cl, r7) => some ⟨r.take nn, t2, r6.takeWhile pyWs, cl, r7⟩
      | none => none
    | none => none) (r.takeWhile pyWs).length

/-- Match `[^>]* >` followed by the close (`[^>]*` cannot cross the first
`>`, so it is deterministic here). -/
def matchTagEnd (title r : List Char) : Option TagEnd :=
  match r.dropWhile (· ≠ '>') with
  | '>' :: r2 => (matchClose title r2).map fun tl => ⟨r.takeWhile (· ≠ '>'), tl⟩
  | _ => none

/-- Match the optional closing quote (quote-first, as the regex engine
prefers) and the tag end. -/
def matchQuote2 (title r : List Char) : Option (List Char × TagEnd) :=
  (match r with
   | c :: r2 =>
     if c = '"' ∨ c = squote then
       (matchTagEnd title r2).map fun te => ([c], te)
     else none
   | [] => none) <|>
  (matchTagEnd title r).map fun te => (([] : List Char), te)

/-- Match `(?:"|')? HREF (?:"|')?` and the rest of the element. -/
def matchHrefVal (href title r : List Char) : Option ValParts :=
  (match r with
   | c :: r2 =>
     if c = '"' ∨ c = squote then
       match ciSplit href r2 with
       | some (h2, r3) =>
         (matchQuote2 title r3).map fun pr => ⟨[c], h2, pr.1, pr.2⟩
       | none => none
     else none
   | [] => none) <|>
  (match ciSplit href r with
   | some (h2, r3) => (matchQuote2 title r3).map fun pr => ⟨[], h2, pr.1, pr.2⟩
   | none => none)

/-- Match the full anchor pattern at the start of `l`. -/
def matchHere (href title l : List Char) : Option AMatch :=
  match ciSplit ['<', 'a'] l with
  | none => none
  | some (aT, r1) =>
    if (r1.head?.map isWordC).getD false then none
    else
      firstSomeDesc (fun nn =>
        match (r1.take nn).getLast? with
        | none => none
        | some gc =>
          if isWordC gc then none
          else
            match ciSplit ['h', 'r', 'e', 'f'] (r1.drop nn) with
            | some (hrefT, r3) =>
              match dropWs r3 with
              | '=' :: r4 =>
                (matchHrefVal href title (dropWs r4)).map fun vp =>
                  ⟨aT, r1.take nn, hrefT, r3.takeWhile pyWs, r4.takeWhile pyWs, vp⟩
              | _ => none
            | none => none) (r1.takeWhile (· ≠ '>')).length

/-- Leftmost search: try each start position in order. -/
def anchorSearchAux (href title : List Char) : List Char → Nat → Option (Nat × AMatch)
  | [], i => (matchHere href title []).map fun m => (i, m)
  | l@(_ :: t), i =>
    match matchHere href title l with
    | some m => some (i, m)
    | none => anchorSearchAux href title t (i + 1)

/-- Embedding of `anchor_regex.search(html)` (line 51): the leftmost match
of the anchor pattern for the given literal href and title. -/
def anchor_regex_search (html href title : String) : Option (Nat × AMatch) :=
  anchorSearchAux href.data title.data html.data 0

/-- The recorded raw-text span: match start index and `m.group(0)`. -/
def anchorSpan (html href title : String) : Option (Nat × String) :=
  (anchor_regex_search html href title).map fun pr =>
    (pr.1, String.mk (consumed pr.2))

/-- An optional quote piece: empty, a double quote, or a single quote. -/
def optQuote (q : List Char) : Prop := q = [] ∨ q = ['"'] ∨ q = [squote]

/-- What a match of the anchor pattern lexically is: an `<a>` element whose
`href` attribute value equals the literal href up to ASCII case (in any
quote style, at any attribute position), and whose bounded inner text equals
the literal title up to ASCII case with optional surrounding whitespace. -/
def anchorShape (m : AMatch) (href title : List Char) : Prop :=
  ciEq m.aTag ['<', 'a'] ∧ (∀ x ∈ m.g1, x ≠ '>')
    ∧ ciEq m.hrefTok ['h', 'r', 'e', 'f'] ∧ allWs m.w1 ∧ allWs m.w2
    ∧ optQuote m.val.q1 ∧ ciEq m.val.h2 href ∧ optQuote m.val.q2
    ∧ (∀ x ∈ m.val.te.attrs2, x ≠ '>')
    ∧ allWs m.val.te.tail.w3 ∧ ciEq m.val.te.tail.t2 title
    ∧ allWs m.val.te.tail.w4 ∧ ciEq m.val.te.tail.cl ['<', '/', 'a', '>']

theorem firstSomeDesc_sound {α : Type} (f : Nat → Option α) :
    ∀ n a, firstSomeDesc f n = some a → ∃ k, k ≤ n ∧ f k = some a := by
  intro n
  induction n with
  | zero => intro a h; exact ⟨0, Nat.le_refl 0, h⟩
  | succ n ih =>
    intro a h
    unfold firstSomeDesc at h
    cases hf : f (n + 1) with
    | some b =>
      rw [hf] at h
      simp only [Option.orElse] at h
      exact ⟨n + 1, Nat.le_refl _, by rw [hf, h]⟩
    | none =>
      rw [hf] at h
      simp only [Option.orElse] at h
      obtain ⟨k, hk, hfk⟩ := ih a h
      exact ⟨k, by omega, hfk⟩

theorem allWs_take_of_le {r : List Char} {nn : Nat}
    (h : nn ≤ (r.takeWhile pyWs).length) : allWs (r.take nn) := by
  intro c hc
  have h1 : r.take nn = (r.takeWhile pyWs).take nn := by
    conv_lhs => rw [← List.takeWhile_append_dropWhile pyWs r]
    rw [List.take_append_of_le_length h]
  rw [h1] at hc
  exact List.mem_takeWhile_imp (List.take_subset nn _ hc)

theorem matchClose_sound {title r : List Char} {cp : CloseParts}
    (h : matchClose title r = some cp) :
    r = cp.w3 ++ cp.t2 ++ cp.w4 ++ cp.cl ++ cp.rest
      ∧ allWs cp.w3 ∧ ciEq cp.t2 title ∧ allWs cp.w4
      ∧ ciEq cp.cl ['<', '/', 'a', '>'] := by
  unfold matchClose at h
  obtain ⟨nn, hnn, hf⟩ := firstSomeDesc_sound _ _ _ h
  cases hsp : ciSplit title (r.drop nn) with
  | none => rw [hsp] at hf; simp at hf
  | some pr =>
    obtain ⟨t2, r6⟩ := pr
    rw [hsp] at hf
    replace hf : (match ciSplit ['<', '/', 'a', '>'] (dropWs r6) with
      | some (cl, r7) =>
        some (⟨r.take nn, t2, r6.takeWhile pyWs, cl, r7⟩ : CloseParts)
      | none => none) = some cp := hf
    cases hsp2 : ciSplit ['<', '/', 'a', '>'] (dropWs r6) with
    | none => rw [hsp2] at hf; simp at hf
    | some pr2 =>
      obtain ⟨cl, r7⟩ := pr2
      rw [hsp2] at hf
      replace hf : some (⟨r.take nn, t2, r6.takeWhile pyWs, cl, r7⟩ : CloseParts)
          = some cp := hf
      obtain rfl := (Option.some.inj hf).symm
      obtain ⟨hr6, ht2ci⟩ := ciSplit_sound hsp
      obtain ⟨hdws, hclci⟩ := ciSplit_sound hsp2
      refine ⟨?_, allWs_take_of_le hnn, ht2ci,
        fun c hc => List.mem_takeWhile_imp hc, hclci⟩
      conv_lhs => rw [← List.take_append_drop nn r]
      rw [hr6]
      conv_lhs =>
        rw [show r6 = r6.takeWhile pyWs ++ dropWs r6 from
          (List.takeWhile_append_dropWhile pyWs r6).symm]
      rw [hdws]
      simp [List.append_assoc]

theorem matchTagEnd_sound {title r : List Char} {te : TagEnd}
    (h : matchTagEnd title r = some te) :
    ∃ r2, r = te.attrs2 ++ '>' :: r2 ∧ (∀ x ∈ te.attrs2, x ≠ '>')
      ∧ matchClose title r2 = some te.tail := by
  unfold matchTagEnd at h
  cases hdw : r.dropWhile (· ≠ '>') with
  | nil => rw [hdw] at h; simp at h
  | cons g r2 =>
    have hg : g = '>' := by simpa using dropWhile_head_not hdw
    subst hg
    rw [hdw] at h
    replace h : (matchClose title r2).map
        (fun tl => (⟨r.takeWhile (· ≠ '>'), tl⟩ : TagEnd)) = some te := h
    obtain ⟨tl, htl, rfl⟩ := Option.map_eq_some'.mp h
    refine ⟨r2, ?_, ?_, htl⟩
    · have hr : r = r.takeWhile (fun c => decide (c ≠ '>')) ++ '>' :: r2 := by
        conv_lhs => rw [← List.takeWhile_append_dropWhile (fun c => decide (c ≠ '>')) r]
        rw [hdw]
      exact hr
    · intro x hx
      simpa using List.mem_takeWhile_imp hx

theorem matchQuote2_sound {title r q2 : List Char} {te : TagEnd}
    (h : matchQuote2 title r = some (q2, te)) :
    ∃ r2, r = q2 ++ r2 ∧ (q2 = [] ∨ q2 = ['"'] ∨ q2 = [squote])
      ∧ matchTagEnd title r2 = some te := by
  unfold matchQuote2 at h
  cases hA : (match r with
    | c :: r2 =>
      if c = '"' ∨ c = squote then
        (matchTagEnd title r2).map fun te => ([c], te)
      else none
    | [] => none) with
  | some pr =>
    rw [hA] at h
    replace h : some pr = some (q2, te) := h
    obtain rfl := Option.some.inj h
    cases r with
    | nil => simp at hA
    | cons c r2 =>
      replace hA : (if c = '"' ∨ c = squote then
          (matchTagEnd title r2).map fun te => ([c], te)
        else none) = some (q2, te) := hA
      by_cases hc : c = '"' ∨ c = squote
      · rw [if_pos hc] at hA
        obtain ⟨tl, htl, hpr⟩ := Option.map_eq_some'.mp hA
        obtain ⟨hq, hte⟩ := Prod.mk.inj hpr
        refine ⟨r2, by rw [← hq]; rfl, ?_, by rw [← hte]; exact htl⟩
        rcases hc with rfl | rfl
        · exact Or.inr (Or.inl (by rw [← hq]))
        · exact Or.inr (Or.inr (by rw [← hq]))
      · rw [if_neg hc] at hA; simp at hA
  | none =>
    rw [hA] at h
    replace h : (matchTagEnd title r).map
        (fun te => (([] : List Char), te)) = some (q2, te) := h
    obtain ⟨tl, htl, hpr⟩ := Option.map_eq_some'.mp h
    obtain ⟨hq, hte⟩ := Prod.mk.inj hpr
    exact ⟨r, by rw [← hq]; rfl, Or.inl (by rw [← hq]), by rw [← hte]; exact htl⟩

theorem matchHrefVal_sound {href title r : List Char} {vp : ValParts}
    (h : matchHrefVal href title r = some vp) :
    ∃ rq r3, r = vp.q1 ++ rq
      ∧ (vp.q1 = [] ∨ vp.q1 = ['"'] ∨ vp.q1 = [squote])
      ∧ rq = vp.h2 ++ r3 ∧ ciEq vp.h2 href
      ∧ matchQuote2 title r3 = some (vp.q2, vp.te) := by
  unfold matchHrefVal at h
  cases hA : (match r with
    | c :: r2 =>
      if c = '"' ∨ c = squote then
        match ciSplit href r2 with
        | some (h2, r3) =>
          (matchQuote2 title r3).map fun (pr : List Char × TagEnd) =>
            (⟨[c], h2, pr.1, pr.2⟩ : ValParts)
        | none => none
      else none
    | [] => none) with
  | some pr =>
    rw [hA] at h
    replace h : some pr = some vp := h
    obtain rfl := Option.some.inj h
    cases r with
    | nil => simp at hA
    | cons c r2 =>
      replace hA : (if c = '"' ∨ c = squote then
          match ciSplit href r2 with
          | some (h2, r3) =>
            (matchQuote2 title r3).map fun (pr : List Char × TagEnd) =>
              (⟨[c], h2, pr.1, pr.2⟩ : ValParts)
          | none => none
        else none) = some pr := hA
      by_cases hc : c = '"' ∨ c = squote
      · rw [if_pos hc] at hA
        cases hsp : ciSplit href r2 with
        | none => rw [hsp] at hA; simp at hA
        | some pr2 =>
          obtain ⟨h2, r3⟩ := pr2
          rw [hsp] at hA
          obtain ⟨qt, hqt, rfl⟩ := Option.map_eq_some'.mp hA
          obtain ⟨hr2, hh2ci⟩ := ciSplit_sound hsp
          refine ⟨r2, r3, rfl, ?_, hr2, hh2ci, ?_⟩
          · rcases hc with rfl | rfl
            · exact Or.inr (Or.inl rfl)
            · exact Or.inr (Or.inr rfl)
          · exact hqt
      · rw [if_neg hc] at hA; simp at hA
  | none =>
    rw [hA] at h
    replace h : (match ciSplit href r with
      | some (h2, r3) =>
        (matchQuote2 title r3).map fun (pr : List Char × TagEnd) =>
          (⟨[], h2, pr.1, pr.2⟩ : ValParts)
      | none => none) = some vp := h
    cases hsp : ciSplit href r with
    | none => rw [hsp] at h; simp at h
    | some pr2 =>
      obtain ⟨h2, r3⟩ := pr2
      rw [hsp] at h
      obtain ⟨qt, hqt, rfl⟩ := Option.map_eq_some'.mp h
      obtain ⟨hr2, hh2ci⟩ := ciSplit_sound hsp
      refine ⟨r, r3, rfl, Or.inl rfl, hr2, hh2ci, ?_⟩
      exact hqt

/-- Soundness of the anchor matcher: any returned match decomposes into the
anchor shape and consumes a prefix of the input. -/
theorem matchHere_sound {href title l : List Char} {m : AMatch}
    (h : matchHere href title l = some m) :
    l = consumed m ++ restOf m ∧ anchorShape m href title := by
  unfold matchHere at h
  cases hsp : ciSplit ['<', 'a'] l with
  | none => rw [hsp] at h; simp at h
  | some pr =>
    obtain ⟨aT, r1⟩ := pr
    rw [hsp] at h
    replace h : (if (r1.head?.map isWordC).getD false then none
      else firstSomeDesc (fun nn =>
        match (r1.take nn).getLast? with
        | none => none
        | some gc =>
          if isWordC gc then none
          else
            match ciSplit ['h', 'r', 'e', 'f'] (r1.drop nn) with
            | some (hrefT, r3) =>
              match dropWs r3 with
              | '=' :: r4 =>
                (matchHrefVal href title (dropWs r4)).map fun vp =>
                  (⟨aT, r1.take nn, hrefT, r3.takeWhile pyWs, r4.takeWhile pyWs, vp⟩ : AMatch)
              | _ => none
            | none => none) (r1.takeWhile (· ≠ '>')).length) = some m := h
    by_cases hb : (r1.head?.map isWordC).getD false
    · rw [if_pos hb] at h; simp at h
    · rw [if_neg hb] at h
      obtain ⟨nn, hnn, hf⟩ := firstSomeDesc_sound _ _ _ h
      cases hlast : (r1.take nn).getLast? with
      | none => rw [hlast] at hf; simp at hf
      | some gc =>
        rw [hlast] at hf
        replace hf : (if isWordC gc then none
          else
            match ciSplit ['h', 'r', 'e', 'f'] (r1.drop nn) with
            | some (hrefT, r3) =>
              match dropWs r3 with
              | '=' :: r4 =>
                (matchHrefVal href title (dropWs r4)).map fun vp =>
                  (⟨aT, r1.take nn, hrefT, r3.takeWhile pyWs, r4.takeWhile pyWs, vp⟩ : AMatch)
              | _ => none
            | none => none) = some m := hf
        by_cases hw : isWordC gc
        · rw [if_pos hw] at hf; simp at hf
        · rw [if_neg hw] at hf
          cases hsp2 : ciSplit ['h', 'r', 'e', 'f'] (r1.drop nn) with
          | none => rw [hsp2] at hf; simp at hf
          | some pr2 =>
            obtain ⟨hrefT, r3⟩ := pr2
            rw [hsp2] at hf
            replace hf : (match dropWs r3 with
              | '=' :: r4 =>
                (matchHrefVal href title (dropWs r4)).map fun vp =>
                  (⟨aT, r1.take nn, hrefT, r3.takeWhile pyWs, r4.takeWhile pyWs, vp⟩ : AMatch)
              | _ => none) = some m := hf
            split at hf
            case _ r4 hdw =>
              obtain ⟨vp, hvp, rfl⟩ := Option.map_eq_some'.mp hf
              obtain ⟨rq, rr3, hdwr4, hq1, hrq, hh2ci, hq2m⟩ := matchHrefVal_sound hvp
              obtain ⟨rr2, hrr3, hq2, hteM⟩ := matchQuote2_sound hq2m
              obtain ⟨rr2b, hrr2, hattrs, hclM⟩ := matchTagEnd_sound hteM
              obtain ⟨hrr2b, hw3, ht2ci, hw4, hclci⟩ := matchClose_sound hclM
              obtain ⟨hl1, haci⟩ := ciSplit_sound hsp
              obtain ⟨hdnn, hhrefci⟩ := ciSplit_sound hsp2
              constructor
              · rw [hl1]
                conv_lhs => rw [← List.take_append_drop nn r1]
                rw [hdnn]
                conv_lhs =>
                  rw [show r3 = r3.takeWhile pyWs ++ dropWs r3 from
                    (List.takeWhile_append_dropWhile pyWs r3).symm]
                rw [hdw]
                conv_lhs =>
                  rw [show r4 = r4.takeWhile pyWs ++ dropWs r4 from
                    (List.takeWhile_append_dropWhile pyWs r4).symm]
                rw [hdwr4, hrq, hrr3, hrr2, hrr2b]
                simp [consumed, restOf, List.append_assoc]
              · refine ⟨haci, ?_, hhrefci,
                  fun c hc => List.mem_takeWhile_imp hc,
                  fun c hc => List.mem_takeWhile_imp hc,
                  hq1, hh2ci, hq2, hattrs, hw3, ht2ci, hw4, hclci⟩
                intro x hx
                have h1 : r1.take nn = (r1.takeWhile (· ≠ '>')).take nn := by
                  conv_lhs =>
                    rw [← List.takeWhile_append_dropWhile (fun c => decide (c ≠ '>')) r1]
                  rw [List.take_append_of_le_length hnn]
                rw [h1] at hx
                have h2 := List.mem_takeWhile_imp (List.take_subset nn _ hx)
                simpa using h2
            case _ => simp at hf

/-- Soundness of the leftmost search: the returned match occurs in the text
at the returned index and was produced by the matcher. -/
theorem anchorSearchAux_sound (href title : List Char) :
    ∀ (l : List Char) (i0 i : Nat) (m : AMatch),
      anchorSearchAux href title l i0 = some (i, m) →
      i0 ≤ i ∧ ∃ dpre, l = dpre ++ (consumed m ++ restOf m)
        ∧ dpre.length = i - i0
        ∧ matchHere href title (consumed m ++ restOf m) = some m := by
  intro l
  induction l with
  | nil =>
    intro i0 i m h
    replace h : (matchHere href title []).map (fun mm => (i0, mm)) = some (i, m) := h
    rw [show matchHere href title [] = none from rfl] at h
    simp at h
  | cons c t ih =>
    intro i0 i m h
    replace h : (match matchHere href title (c :: t) with
      | some mm => some (i0, mm)
      | none => anchorSearchAux href title t (i0 + 1)) = some (i, m) := h
    cases hm : matchHere href title (c :: t) with
    | some mm =>
      rw [hm] at h
      replace h : some (i0, mm) = some (i, m) := h
      obtain ⟨h1, h2⟩ := Prod.mk.inj (Option.some.inj h)
      subst h1
      subst h2
      obtain ⟨heq, _⟩ := matchHere_sound hm
      rw [heq] at hm
      exact ⟨Nat.le_refl _, [], heq, by simp, hm⟩
    | none =>
      rw [hm] at h
      obtain ⟨hle, dpre, hdec, hlen, hmh⟩ := ih (i0 + 1) i m h
      refine ⟨by omega, c :: dpre, ?_, ?_, hmh⟩
      · rw [List.cons_append, ← hdec]
      · simp only [List.length_cons, hlen]
        omega

/-- C8 counterexample: for the document containing
`<a href="B.GPX">t</a>` before `<a href="b.gpx">t</a>`, the raw-text search
for the literal href `b.gpx` records the span of the FIRST anchor (the
pattern is case-insensitive), whose raw href attribute value is `B.GPX`;
the span does not contain the literal string `b.gpx` at all, so its href
value cannot equal the literal original href string. -/
theorem c8_counterexample :
    anchorSpan "<a href=\"B.GPX\">t</a>\n<a href=\"b.gpx\">t</a>" "b.gpx" "t"
      = some (0, "<a href=\"B.GPX\">t</a>")
    ∧ ¬ ∃ m : AMatch, ("<a href=\"B.GPX\">t</a>" : String).data = consumed m
        ∧ m.val.h2 = ("b.gpx" : String).data := by
  refine ⟨by decide, ?_⟩
  rintro ⟨m, hspan, hh⟩
  have hinf : ("b.gpx" : String).data <:+: ("<a href=\"B.GPX\">t</a>" : String).data := by
    rw [hspan, ← hh]
    exact ⟨m.aTag ++ m.g1 ++ m.hrefTok ++ m.w1 ++ '=' :: (m.w2 ++ m.val.q1),
      m.val.q2 ++ m.val.te.attrs2 ++ '>' :: (m.val.te.tail.w3 ++ m.val.te.tail.t2
        ++ m.val.te.tail.w4 ++ m.val.te.tail.cl),
      by simp [consumed, List.append_assoc]⟩
  exact absurd hinf (by decide)

/-- C8 amended: every span recorded by the raw-text anchor search occurs in
the document at the recorded index and lexically matches an `<a>` element
whose `href` attribute value equals the literal href UP TO ASCII CASE
(under any attribute ordering, spacing and quote style) and whose bounded
inner text equals the literal title up to ASCII case with optional
surrounding whitespace. -/
theorem c8_pattern_shape (html href title : String) (i : Nat) (m : AMatch)
    (h : anchor_regex_search html href title = some (i, m)) :
    (∃ rest, html.data = html.data.take i ++ consumed m ++ rest
      ∧ (html.data.take i).length = i)
    ∧ anchorShape m href.data title.data := by
  obtain ⟨hle, dpre, hdec, hlen, hmh⟩ :=
    anchorSearchAux_sound href.data title.data html.data 0 i m h
  have hshape := (matchHere_sound hmh).2
  have hdl : dpre.length = i := by omega
  have htake : html.data.take i = dpre := by
    rw [hdec, ← hdl, List.take_append_of_le_length (Nat.le_refl _),
      List.take_length]
  refine ⟨⟨restOf m, ?_, by rw [htake, hdl]⟩, hshape⟩
  rw [htake, hdec, List.append_assoc]

/-- Witness for `c8_pattern_shape` on `<a href="x.gpx">t</a>`. -/
theorem c8_pattern_shape_witness :
    (∃ rest, ("<a href=\"x.gpx\">t</a>" : String).data
        = ("<a href=\"x.gpx\">t</a>" : String).data.take 0
          ++ consumed ⟨"<a".data, [' '], "href".data, [], [],
              ⟨['"'], "x.gpx".data, ['"'], ⟨[], ⟨[], ['t'], [], "</a>".data, []⟩⟩⟩⟩
          ++ rest
      ∧ (("<a href=\"x.gpx\">t</a>" : String).data.take 0).length = 0)
    ∧ anchorShape ⟨"<a".data, [' '], "href".data, [], [],
        ⟨['"'], "x.gpx".data, ['"'], ⟨[], ⟨[], ['t'], [], "</a>".data, []⟩⟩⟩⟩
        ("x.gpx" : String).data ("t" : String).data :=
  c8_pattern_shape "<a href=\"x.gpx\">t</a>" "x.gpx" "t" 0
    ⟨"<a".data, [' '], "href".data, [], [],
      ⟨['"'], "x.gpx".data, ['"'], ⟨[], ⟨[], ['t'], [], "</a>".data, []⟩⟩⟩⟩
    rfl

end Gpx
